import Mathlib

/-!
# Verification of the PPLX_Handeler span/line reconciliation engine

Shallow embedding of the reconciliation core of this repository:

* `src/core/wire_spec_from_excel.py` — span-count reconciler
  (`build_spans_comparison_data`, `_count_and_consume`), comm-count capping,
  shapefile nearest-line query (`_ShapefileLayer.query`), wire-spec comparator
  (`build_wire_spec_comparison`);
* `src/core/handler.py` — design-file span extractor
  (`get_span_type_length_angle_triples_for_spans_qc`).

Modelling conventions:

* Python floats are modelled as exact rationals (`ℚ`); IEEE-754 rounding of
  individual float operations is not modelled.  `math.pi` is the double nearest
  π, whose exact value is `884279719003555 / 281474976710656`; `math.radians(x)`
  is `x * (mathPi / 180)` and `math.degrees(x)` is `x * (180 / mathPi)`.
* Python `x % y` on floats with `y > 0` is `pymod` (result in `[0, y)`),
  Python `round` is `pyround` (round half to even), `str.lower()` is `pyLower`
  (the span-type strings concerned are ASCII).
* Python dicts keyed by strings whose reads all use `.get(k, default)` are
  modelled as functions `String → ℕ`; dicts with `is None` checks are
  association lists.  Python sets are modelled as `Finset`s or lists — only
  membership is ever observed.
* XML elements are modelled at the level of the parsed attributes the extractor
  reads (`_get_attr_float(e, "CoordinateA")`, `_parse_span_attrs`): each element
  carries its tag, its optional `CoordinateA`, and its optional parsed
  `SpanType` / `SpanDistanceInInches`.
-/

/-- Exact value of the IEEE-754 double `math.pi`. -/
def mathPi : ℚ := 884279719003555 / 281474976710656

/-- `2.0 * math.pi`. -/
def twoPi : ℚ := 2 * mathPi

/-- Python float `x % y` for `y > 0`: `x - y * floor (x / y)`, in `[0, y)`. -/
def pymod (x y : ℚ) : ℚ := x - y * ⌊x / y⌋

/-- Python `round`: round half to even. -/
def pyround (x : ℚ) : ℤ :=
  let n := ⌊x⌋
  let f := x - n
  if f < 1/2 then n else if 1/2 < f then n + 1 else if n % 2 = 0 then n else n + 1

/-- Python `str.lower()` for the ASCII span-type strings handled here. -/
def pyLower (s : String) : String := ⟨s.data.map Char.toLower⟩

/-- `math.radians(x)`. -/
def radiansQ (x : ℚ) : ℚ := x * (mathPi / 180)

/-- `math.degrees(x)`. -/
def degreesQ (x : ℚ) : ℚ := x * (180 / mathPi)

/-- Point-wise update of a string-keyed dict modelled as a function. -/
def updFn (f : String → ℕ) (k : String) (v : ℕ) : String → ℕ :=
  fun s => if s = k then v else f s

/-!
## Span-count reconciler: `_count_and_consume`
(`src/core/wire_spec_from_excel.py`, lines 998–1048)
-/

/-- `comm_types = {"catv", "fiber", "telco"}`. -/
def commTypes : List String := ["catv", "fiber", "telco"]

/-- A design-span triple `(SpanType, SpanDistanceInInches, angle_rad)` as
produced by `get_span_type_length_angle_triples_for_spans_qc`. -/
abbrev Triple := String × ℚ × Option ℚ

/-- `angle_tolerance_rad = math.radians(10)`. -/
def angleTolerance : ℚ := radiansQ 10

/-- The folded angular difference of `_count_and_consume`:
`d = abs(angle - target_angle); if d > pi: d = 2*pi - d`. -/
def angDiff (a ta : ℚ) : ℚ :=
  let d := |a - ta|
  if mathPi < d then twoPi - d else d

/-- Result of one `_count_and_consume` call: the per-type match counts
(`counts`), the types with an angle-matching but length-mismatching span
(`angle_only_types`; a Python set, modelled as a list whose membership is
observed), and the list of consumed span indices (`matched`). -/
structure CCRes where
  counts : String → ℕ
  angleOnly : List String
  matched : List ℕ

/-- The `for idx, (stype, L, angle) in enumerate(triples)` loop of
`_count_and_consume`, with `idx` starting from the given value.  `consumed` is
the file's consumed-index set at call entry (it is only read during the loop;
`consumed.update(matched)` happens after it). -/
def ccGo (consumed : Finset ℕ) (lengthIn tolIn : ℚ) (targetAngle : Option ℚ) :
    ℕ → List Triple → CCRes
  | _, [] => ⟨fun _ => 0, [], []⟩
  | idx, (stype, L, angle) :: rest =>
    let r := ccGo consumed lengthIn tolIn targetAngle (idx + 1) rest
    if idx ∈ consumed then r
    else
      let key := pyLower stype
      let lengthOk := |L - lengthIn| ≤ tolIn
      match targetAngle, angle with
      | some ta, some a =>
        -- use_angle: angle+length matching (comm and power)
        if angDiff a ta ≤ angleTolerance then
          if lengthOk then ⟨updFn r.counts key (r.counts key + 1), r.angleOnly, idx :: r.matched⟩
          else ⟨r.counts, key :: r.angleOnly, r.matched⟩
        else r
      | _, _ =>
        -- no angle info: power spans match by length only, comm spans never
        if key ∉ commTypes then
          if lengthOk then ⟨updFn r.counts key (r.counts key + 1), r.angleOnly, idx :: r.matched⟩
          else r
        else r

/-- `_count_and_consume(pplx_path, triples, length_in, tol_in, target_angle)`:
loop result plus the updated consumed set (`consumed.update(matched)`). -/
def countAndConsume (consumed : Finset ℕ) (triples : List Triple)
    (lengthIn tolIn : ℚ) (targetAngle : Option ℚ) : CCRes × Finset ℕ :=
  let r := ccGo consumed lengthIn tolIn targetAngle 0 triples
  (r, consumed ∪ r.matched.toFinset)

/-- The QC verdict of `build_spans_comparison_data` (lines 1155–1162) for
survey count `k`, design count `p` and `span_type in angle_only_types`. -/
def qcOf (k p : ℕ) (angleOnly : Bool) : String :=
  if k = p then "PASS"
  else if p < k ∧ angleOnly then "Length"
  else "FAIL"

/-- One emitted row of the spans comparison (pole columns omitted). -/
structure ReconRow where
  spanType : String
  katapult : ℕ
  pplx : ℕ
  qc : String
  deriving DecidableEq

/-- The `for span_type in sorted(all_types)` row-emission loop of
`build_spans_comparison_data` for one connection, given the (comm-adjusted)
Katapult counts, the `_count_and_consume` result and the enumerated types. -/
def mkReconRows (kat : String → ℕ) (r : CCRes) (allTypes : List String) :
    List ReconRow :=
  allTypes.map fun ty =>
    ⟨ty, kat ty, r.counts ty, qcOf (kat ty) (r.counts ty) (decide (ty ∈ r.angleOnly))⟩

/-- Specification predicate: the matching condition of `_count_and_consume` for
a single unconsumed triple, as the spec states it (length within tolerance and,
when both bearings are available, folded angular difference within 10°; with
bearing information unavailable, power types match by length alone and comm
types never match). -/
def matchesSpec (lengthIn tolIn : ℚ) (targetAngle : Option ℚ) (t : Triple) : Prop :=
  match targetAngle, t.2.2 with
  | some ta, some a => angDiff a ta ≤ angleTolerance ∧ |t.2.1 - lengthIn| ≤ tolIn
  | _, _ => pyLower t.1 ∉ commTypes ∧ |t.2.1 - lengthIn| ≤ tolIn

instance matchesSpecDec (lengthIn tolIn : ℚ) :
    (targetAngle : Option ℚ) → (t : Triple) → Decidable (matchesSpec lengthIn tolIn targetAngle t)
  | some ta, (s, L, some a) =>
    inferInstanceAs (Decidable (angDiff a ta ≤ angleTolerance ∧ |L - lengthIn| ≤ tolIn))
  | some _, (s, L, none) =>
    inferInstanceAs (Decidable (pyLower s ∉ commTypes ∧ |L - lengthIn| ≤ tolIn))
  | none, (s, L, some _) =>
    inferInstanceAs (Decidable (pyLower s ∉ commTypes ∧ |L - lengthIn| ≤ tolIn))
  | none, (s, L, none) =>
    inferInstanceAs (Decidable (pyLower s ∉ commTypes ∧ |L - lengthIn| ≤ tolIn))

/-- Specification predicate: a triple witnesses membership of `key` in
`angle_only_types` — its type key is `key`, a target bearing and a span bearing
are both available, the folded angular difference is within tolerance, and the
length is not. -/
def angleOnlySpec (lengthIn tolIn : ℚ) (targetAngle : Option ℚ) (t : Triple)
    (key : String) : Prop :=
  pyLower t.1 = key ∧
    match targetAngle, t.2.2 with
    | some ta, some a => angDiff a ta ≤ angleTolerance ∧ ¬ (|t.2.1 - lengthIn| ≤ tolIn)
    | _, _ => False

instance angleOnlySpecDec (lengthIn tolIn : ℚ) :
    (targetAngle : Option ℚ) → (t : Triple) → (key : String) →
      Decidable (angleOnlySpec lengthIn tolIn targetAngle t key)
  | some ta, (s, L, some a), key =>
    inferInstanceAs
      (Decidable (pyLower s = key ∧ angDiff a ta ≤ angleTolerance ∧ ¬ (|L - lengthIn| ≤ tolIn)))
  | some _, (s, L, none), key => inferInstanceAs (Decidable (pyLower s = key ∧ False))
  | none, (s, L, some _), key => inferInstanceAs (Decidable (pyLower s = key ∧ False))
  | none, (s, L, none), key => inferInstanceAs (Decidable (pyLower s = key ∧ False))

/-!
## Characterization lemmas for `_count_and_consume`
-/


/-- The filter predicate of the matched-index characterization. -/
def ccKeep (c : Finset ℕ) (li ti : ℚ) (tgt : Option ℚ) (p : ℕ × Triple) : Bool :=
  decide (p.1 ∉ c) && decide (matchesSpec li ti tgt p.2)

lemma ccGo_matched_eq (c : Finset ℕ) (li ti : ℚ) (tgt : Option ℚ) :
    ∀ (l : List Triple) (start : ℕ),
      (ccGo c li ti tgt start l).matched =
        ((List.enumFrom start l).filter (ccKeep c li ti tgt)).map Prod.fst := by
  intro l
  induction l with
  | nil => intro start; simp [ccGo, List.enumFrom]
  | cons t rest ih =>
    intro start
    obtain ⟨s, L, a⟩ := t
    show (ccGo c li ti tgt start ((s, L, a) :: rest)).matched =
      ((((start, (s, L, a)) : ℕ × Triple) :: List.enumFrom (start + 1) rest).filter
        (ccKeep c li ti tgt)).map Prod.fst
    by_cases hc : start ∈ c
    · rw [List.filter_cons_of_neg (by simp [ccKeep, hc])]
      simp only [ccGo, hc, if_true]
      exact ih (start + 1)
    · rcases tgt with _ | ta
      · by_cases hcomm : pyLower s ∉ commTypes
        · by_cases hlen : |L - li| ≤ ti
          · rw [List.filter_cons_of_pos (by simp [ccKeep, hc, matchesSpec, hcomm, hlen])]
            simp only [ccGo, hc, if_false, hcomm, if_true, hlen, List.map_cons]
            exact congrArg (start :: ·) (ih (start + 1))
          · rw [List.filter_cons_of_neg (by simp [ccKeep, matchesSpec, hlen])]
            simp only [ccGo, hc, if_false, hcomm, if_true, hlen]
            exact ih (start + 1)
        · rw [List.filter_cons_of_neg (by simp [ccKeep, matchesSpec, hcomm])]
          simp only [ccGo, hc, if_false, hcomm, if_false]
          exact ih (start + 1)
      · rcases a with _ | ang
        · by_cases hcomm : pyLower s ∉ commTypes
          · by_cases hlen : |L - li| ≤ ti
            · rw [List.filter_cons_of_pos (by simp [ccKeep, hc, matchesSpec, hcomm, hlen])]
              simp only [ccGo, hc, if_false, hcomm, if_true, hlen, List.map_cons]
              exact congrArg (start :: ·) (ih (start + 1))
            · rw [List.filter_cons_of_neg (by simp [ccKeep, matchesSpec, hlen])]
              simp only [ccGo, hc, if_false, hcomm, if_true, hlen]
              exact ih (start + 1)
          · rw [List.filter_cons_of_neg (by simp [ccKeep, matchesSpec, hcomm])]
            simp only [ccGo, hc, if_false, hcomm, if_false]
            exact ih (start + 1)
        · by_cases hang : angDiff ang ta ≤ angleTolerance
          · by_cases hlen : |L - li| ≤ ti
            · rw [List.filter_cons_of_pos (by simp [ccKeep, hc, matchesSpec, hang, hlen])]
              simp only [ccGo, hc, if_false, hang, if_true, hlen, List.map_cons]
              exact congrArg (start :: ·) (ih (start + 1))
            · rw [List.filter_cons_of_neg (by simp [ccKeep, matchesSpec, hlen])]
              simp only [ccGo, hc, if_false, hang, if_true, hlen]
              exact ih (start + 1)
          · rw [List.filter_cons_of_neg (by simp [ccKeep, matchesSpec, hang])]
            simp only [ccGo, hc, if_false, hang, if_false]
            exact ih (start + 1)

lemma ccGo_counts_eq (c : Finset ℕ) (li ti : ℚ) (tgt : Option ℚ) :
    ∀ (l : List Triple) (start : ℕ) (ty : String),
      (ccGo c li ti tgt start l).counts ty =
        (List.enumFrom start l).countP
          (fun p => ccKeep c li ti tgt p && decide (pyLower p.2.1 = ty)) := by
  intro l
  induction l with
  | nil => intro start ty; simp [ccGo, List.enumFrom]
  | cons t rest ih =>
    intro start ty
    obtain ⟨s, L, a⟩ := t
    show (ccGo c li ti tgt start ((s, L, a) :: rest)).counts ty =
      ((((start, (s, L, a)) : ℕ × Triple) :: List.enumFrom (start + 1) rest).countP
        (fun p => ccKeep c li ti tgt p && decide (pyLower p.2.1 = ty)))
    rw [List.countP_cons]
    by_cases hc : start ∈ c
    · have hpred : (ccKeep c li ti tgt (start, (s, L, a)) && decide (pyLower s = ty)) = false := by
        simp [ccKeep, hc]
      simp [ccGo, hc, hpred, ih (start + 1) ty]
    · rcases tgt with _ | ta
      · by_cases hcomm : pyLower s ∉ commTypes
        · by_cases hlen : |L - li| ≤ ti
          · by_cases hty : ty = pyLower s
            · subst hty
              have hpred : ccKeep c li ti none (start, (s, L, a)) = true := by
                simp [ccKeep, hc, matchesSpec, hcomm, hlen]
              simp [ccGo, hc, hcomm, hlen, updFn, hpred, ih (start + 1) (pyLower s)]
            · have hpred : (ccKeep c li ti none (start, (s, L, a)) && decide (pyLower s = ty)) = false := by
                simp [ccKeep]; intro _ _; exact fun h => absurd h.symm hty
              simp [ccGo, hc, hcomm, hlen, updFn, hty, hpred, ih (start + 1) ty]
          · have hpred : (ccKeep c li ti none (start, (s, L, a)) && decide (pyLower s = ty)) = false := by
              simp [ccKeep, matchesSpec, hlen]
            simp [ccGo, hc, hcomm, hlen, hpred, ih (start + 1) ty]
        · have hpred : (ccKeep c li ti none (start, (s, L, a)) && decide (pyLower s = ty)) = false := by
            simp [ccKeep, matchesSpec, not_not.mp hcomm]
          simp [ccGo, hc, hcomm, hpred, ih (start + 1) ty]
      · rcases a with _ | ang
        · by_cases hcomm : pyLower s ∉ commTypes
          · by_cases hlen : |L - li| ≤ ti
            · by_cases hty : ty = pyLower s
              · subst hty
                have hpred : ccKeep c li ti (some ta) (start, (s, L, none)) = true := by
                  simp [ccKeep, hc, matchesSpec, hcomm, hlen]
                simp [ccGo, hc, hcomm, hlen, updFn, hpred, ih (start + 1) (pyLower s)]
              · have hpred : (ccKeep c li ti (some ta) (start, (s, L, none)) && decide (pyLower s = ty)) = false := by
                  simp [ccKeep]; intro _ _; exact fun h => absurd h.symm hty
                simp [ccGo, hc, hcomm, hlen, updFn, hty, hpred, ih (start + 1) ty]
            · have hpred : (ccKeep c li ti (some ta) (start, (s, L, none)) && decide (pyLower s = ty)) = false := by
                simp [ccKeep, matchesSpec, hlen]
              simp [ccGo, hc, hcomm, hlen, hpred, ih (start + 1) ty]
          · have hpred : (ccKeep c li ti (some ta) (start, (s, L, none)) && decide (pyLower s = ty)) = false := by
              simp [ccKeep, matchesSpec, not_not.mp hcomm]
            simp [ccGo, hc, hcomm, hpred, ih (start + 1) ty]
        · by_cases hang : angDiff ang ta ≤ angleTolerance
          · by_cases hlen : |L - li| ≤ ti
            · by_cases hty : ty = pyLower s
              · subst hty
                have hpred : ccKeep c li ti (some ta) (start, (s, L, some ang)) = true := by
                  simp [ccKeep, hc, matchesSpec, hang, hlen]
                simp [ccGo, hc, hang, hlen, updFn, hpred, ih (start + 1) (pyLower s)]
              · have hpred : (ccKeep c li ti (some ta) (start, (s, L, some ang)) && decide (pyLower s = ty)) = false := by
                  simp [ccKeep]; intro _ _; exact fun h => absurd h.symm hty
                simp [ccGo, hc, hang, hlen, updFn, hty, hpred, ih (start + 1) ty]
            · have hpred : (ccKeep c li ti (some ta) (start, (s, L, some ang)) && decide (pyLower s = ty)) = false := by
                simp [ccKeep, matchesSpec, hlen]
              simp [ccGo, hc, hang, hlen, hpred, ih (start + 1) ty]
          · have hpred : (ccKeep c li ti (some ta) (start, (s, L, some ang)) && decide (pyLower s = ty)) = false := by
              simp [ccKeep, matchesSpec, hang]
            simp [ccGo, hc, hang, hpred, ih (start + 1) ty]

lemma ccGo_angleOnly_mem (c : Finset ℕ) (li ti : ℚ) (tgt : Option ℚ) :
    ∀ (l : List Triple) (start : ℕ) (key : String),
      key ∈ (ccGo c li ti tgt start l).angleOnly ↔
        ∃ p ∈ List.enumFrom start l, p.1 ∉ c ∧ angleOnlySpec li ti tgt p.2 key := by
  intro l
  induction l with
  | nil => intro start key; simp [ccGo, List.enumFrom]
  | cons t rest ih =>
    intro start key
    obtain ⟨s, L, a⟩ := t
    show key ∈ (ccGo c li ti tgt start ((s, L, a) :: rest)).angleOnly ↔
      ∃ p ∈ (((start, (s, L, a)) : ℕ × Triple) :: List.enumFrom (start + 1) rest),
        p.1 ∉ c ∧ angleOnlySpec li ti tgt p.2 key
    by_cases hc : start ∈ c
    · simp [ccGo, hc, ih (start + 1) key]
    · rcases tgt with _ | ta
      · rcases a with _ | ang
        · by_cases hcomm : pyLower s ∉ commTypes
          · by_cases hlen : |L - li| ≤ ti
            · simp [ccGo, hc, hcomm, hlen, angleOnlySpec, ih (start + 1) key]
            · simp [ccGo, hc, hcomm, hlen, angleOnlySpec, ih (start + 1) key]
          · simp [ccGo, hc, hcomm, angleOnlySpec, ih (start + 1) key]
        · by_cases hcomm : pyLower s ∉ commTypes
          · by_cases hlen : |L - li| ≤ ti
            · simp [ccGo, hc, hcomm, hlen, angleOnlySpec, ih (start + 1) key]
            · simp [ccGo, hc, hcomm, hlen, angleOnlySpec, ih (start + 1) key]
          · simp [ccGo, hc, hcomm, angleOnlySpec, ih (start + 1) key]
      · rcases a with _ | ang
        · by_cases hcomm : pyLower s ∉ commTypes
          · by_cases hlen : |L - li| ≤ ti
            · simp [ccGo, hc, hcomm, hlen, angleOnlySpec, ih (start + 1) key]
            · simp [ccGo, hc, hcomm, hlen, angleOnlySpec, ih (start + 1) key]
          · simp [ccGo, hc, hcomm, angleOnlySpec, ih (start + 1) key]
        · by_cases hang : angDiff ang ta ≤ angleTolerance
          · by_cases hlen : |L - li| ≤ ti
            · simp [ccGo, hc, hang, hlen, angleOnlySpec, ih (start + 1) key]
            · simp [ccGo, hc, hang, hlen, not_le.mp hlen, angleOnlySpec, ih (start + 1) key,
                eq_comm]
          · simp [ccGo, hc, hang, angleOnlySpec, ih (start + 1) key]

/-- Default of the `length_tolerance_in` parameter of
`build_spans_comparison_data` (36 inches = 3 feet). -/
def defaultLengthToleranceIn : ℚ := 36

/-- C2: in the span-count reconciler, an enumerated design span is counted as a
match for its type (and consumed) iff it was unconsumed and: its length is
within the absolute length tolerance of the connection's span distance in
inches, and, when both a target bearing and a span bearing are available, the
folded angular difference is within 10°; without bearing information,
non-comm (power) spans match by length alone and comm spans never match.
The per-type counts are exactly the number of such matches of that type. -/
theorem countAndConsume_match_iff :
    ∀ (consumed : Finset ℕ) (triples : List Triple) (spanDistFt tolIn : ℚ)
      (targetAngle : Option ℚ) (idx : ℕ),
      (idx ∈ (countAndConsume consumed triples (spanDistFt * 12) tolIn targetAngle).1.matched ↔
        idx ∉ consumed ∧ ∃ t, (idx, t) ∈ triples.enum ∧
          matchesSpec (spanDistFt * 12) tolIn targetAngle t) ∧
      (∀ ty, (countAndConsume consumed triples (spanDistFt * 12) tolIn targetAngle).1.counts ty =
        triples.enum.countP (fun p =>
          ccKeep consumed (spanDistFt * 12) tolIn targetAngle p &&
            decide (pyLower p.2.1 = ty))) ∧
      defaultLengthToleranceIn = 36 := by
  intro consumed triples spanDistFt tolIn targetAngle idx
  have h1 : (countAndConsume consumed triples (spanDistFt * 12) tolIn targetAngle).1 =
      ccGo consumed (spanDistFt * 12) tolIn targetAngle 0 triples := rfl
  refine ⟨?_, ?_, rfl⟩
  · rw [h1, ccGo_matched_eq]
    constructor
    · intro h
      simp only [List.mem_map, List.mem_filter] at h
      obtain ⟨⟨i, t⟩, ⟨hmem, hpred⟩, hfst⟩ := h
      simp only at hfst
      subst hfst
      simp only [ccKeep, Bool.and_eq_true, decide_eq_true_eq] at hpred
      exact ⟨hpred.1, t, hmem, hpred.2⟩
    · rintro ⟨hnc, t, hmem, hms⟩
      simp only [List.mem_map, List.mem_filter]
      refine ⟨(idx, t), ⟨hmem, ?_⟩, rfl⟩
      simp [ccKeep, hnc, hms]
  · intro ty
    rw [h1, ccGo_counts_eq]
    rfl

/-- C1: for every (connection, span type) row emitted by the span-count
reconciler with survey count `k` and design count `p`, the QC verdict is
`PASS` iff `k = p`; it is `Length` iff `k > p` and some unconsumed design span
of that type had a bearing within tolerance of the target bearing but a length
outside the length tolerance; otherwise it is `FAIL`. -/
theorem spansQc_verdict_characterization :
    ∀ (consumed : Finset ℕ) (triples : List Triple) (lengthIn tolIn : ℚ)
      (targetAngle : Option ℚ) (kat : String → ℕ) (allTypes : List String) (row : ReconRow),
      row ∈ mkReconRows kat
        (countAndConsume consumed triples lengthIn tolIn targetAngle).1 allTypes →
      ((row.qc = "PASS" ↔ row.katapult = row.pplx) ∧
       (row.qc = "Length" ↔ row.pplx < row.katapult ∧
          ∃ p ∈ triples.enum, p.1 ∉ consumed ∧
            angleOnlySpec lengthIn tolIn targetAngle p.2 row.spanType) ∧
       (row.qc = "FAIL" ↔ ¬ row.katapult = row.pplx ∧
          ¬ (row.pplx < row.katapult ∧
             ∃ p ∈ triples.enum, p.1 ∉ consumed ∧
               angleOnlySpec lengthIn tolIn targetAngle p.2 row.spanType))) := by
  intro consumed triples lengthIn tolIn targetAngle kat allTypes row hrow
  have h0 : (countAndConsume consumed triples lengthIn tolIn targetAngle).1 =
      ccGo consumed lengthIn tolIn targetAngle 0 triples := rfl
  rw [h0] at hrow
  simp only [mkReconRows, List.mem_map] at hrow
  obtain ⟨ty, -, rfl⟩ := hrow
  dsimp only
  have haot : (decide (ty ∈ (ccGo consumed lengthIn tolIn targetAngle 0 triples).angleOnly)
      = true) ↔
      ∃ p ∈ triples.enum, p.1 ∉ consumed ∧ angleOnlySpec lengthIn tolIn targetAngle p.2 ty := by
    rw [decide_eq_true_eq, ccGo_angleOnly_mem]
    rfl
  have hne1 : ("PASS" : String) ≠ "Length" := by decide
  have hne2 : ("PASS" : String) ≠ "FAIL" := by decide
  have hne3 : ("Length" : String) ≠ "FAIL" := by decide
  unfold qcOf
  by_cases h1 : kat ty = (ccGo consumed lengthIn tolIn targetAngle 0 triples).counts ty
  · rw [if_pos h1]
    refine ⟨⟨fun _ => h1, fun _ => rfl⟩, ?_, ?_⟩
    · constructor
      · intro h; exact absurd h hne1
      · rintro ⟨hlt, -⟩; exact absurd h1 (Nat.ne_of_gt hlt)
    · constructor
      · intro h; exact absurd h hne2
      · rintro ⟨hne, -⟩; exact absurd h1 hne
  · rw [if_neg h1]
    by_cases h2 : (ccGo consumed lengthIn tolIn targetAngle 0 triples).counts ty < kat ty ∧
        (decide (ty ∈ (ccGo consumed lengthIn tolIn targetAngle 0 triples).angleOnly)
          : Bool) = true
    · rw [if_pos h2]
      refine ⟨⟨fun h => absurd h hne1.symm, fun h => absurd h h1⟩, ?_, ?_⟩
      · exact ⟨fun _ => ⟨h2.1, haot.mp h2.2⟩, fun _ => rfl⟩
      · constructor
        · intro h; exact absurd h hne3
        · rintro ⟨-, hno⟩
          exact absurd ⟨h2.1, haot.mp h2.2⟩ hno
    · rw [if_neg h2]
      refine ⟨⟨fun h => absurd h hne2.symm, fun h => absurd h h1⟩, ?_, ?_⟩
      · constructor
        · intro h; exact absurd h hne3.symm
        · rintro ⟨hlt, hex⟩
          exact absurd ⟨hlt, haot.mpr hex⟩ h2
      · refine ⟨fun _ => ⟨h1, fun hcon => ?_⟩, fun _ => rfl⟩
        exact absurd ⟨hcon.1, haot.mpr hcon.2⟩ h2

/-- Concrete row for the C1 witness. -/
def c1WitnessRow : ReconRow := ⟨"primary", 1, 1, "PASS"⟩

/-- Concrete design-span pool for the C1 witness. -/
def c1WitnessTriples : List Triple := [("primary", 100, none)]

/-- Concrete Katapult counts for the C1 witness. -/
def c1WitnessKat : String → ℕ := fun s => if s = "primary" then 1 else 0

/-- Witness for C1 at a concrete input (one matching primary span, counts 1/1,
verdict PASS). -/
theorem spansQc_verdict_characterization_witness :
    (c1WitnessRow ∈ mkReconRows c1WitnessKat
        (countAndConsume ∅ c1WitnessTriples 100 36 none).1 ["primary"]) ∧
    ((c1WitnessRow.qc = "PASS" ↔ c1WitnessRow.katapult = c1WitnessRow.pplx) ∧
     (c1WitnessRow.qc = "Length" ↔ c1WitnessRow.pplx < c1WitnessRow.katapult ∧
        ∃ p ∈ c1WitnessTriples.enum, p.1 ∉ (∅ : Finset ℕ) ∧
          angleOnlySpec 100 36 none p.2 c1WitnessRow.spanType) ∧
     (c1WitnessRow.qc = "FAIL" ↔ ¬ c1WitnessRow.katapult = c1WitnessRow.pplx ∧
        ¬ (c1WitnessRow.pplx < c1WitnessRow.katapult ∧
           ∃ p ∈ c1WitnessTriples.enum, p.1 ∉ (∅ : Finset ℕ) ∧
             angleOnlySpec 100 36 none p.2 c1WitnessRow.spanType))) := by
  have hmem : c1WitnessRow ∈ mkReconRows c1WitnessKat
      (countAndConsume ∅ c1WitnessTriples 100 36 none).1 ["primary"] := by
    have hpl : pyLower "primary" = "primary" := by decide
    have hlen : |(100 : ℚ) - 100| ≤ 36 := by norm_num
    have hcm : ("primary" : String) ∉ commTypes := by decide
    simp [mkReconRows, countAndConsume, ccGo, updFn, qcOf, c1WitnessRow, c1WitnessTriples,
      c1WitnessKat, hpl, hlen, hcm]
  exact ⟨hmem, spansQc_verdict_characterization ∅ c1WitnessTriples 100 36 none
    c1WitnessKat ["primary"] c1WitnessRow hmem⟩

/-!
## C3: consumption exclusivity across one reconciliation run

`build_spans_comparison_data` holds `consumed_span_indices : Dict[str, Set[int]]`
(one consumed-index set per PPLX file, empty at the start of the run) and calls
`_count_and_consume` once per connection.
-/

/-- One `_count_and_consume` request of the per-connection loop: the chosen
PPLX path and the arguments `length_in`, `tol_in`, `target_angle`. -/
structure RQuery where
  path : String
  lengthIn : ℚ
  tolIn : ℚ
  targetAngle : Option ℚ

/-- `consumed_span_indices` (one `Finset ℕ` per path, defaulting to `∅`
exactly as `if pplx_path not in consumed_span_indices: ... = set()`). -/
abbrev ConsumedState := String → Finset ℕ

/-- Point-wise update of the consumed-state map. -/
def updState (st : ConsumedState) (p : String) (s : Finset ℕ) : ConsumedState :=
  fun q => if q = p then s else st q

/-- The per-connection loop of one reconciliation run: each query runs
`_count_and_consume` against its file's triples (`spansOf`) and the file's
current consumed set, then merges the matched indices into that set.  Returns,
per query, the path and the list of consumed (counted) span indices. -/
def reconTrace (spansOf : String → List Triple) :
    ConsumedState → List RQuery → List (String × List ℕ)
  | _, [] => []
  | st, q :: qs =>
    let r := ccGo (st q.path) q.lengthIn q.tolIn q.targetAngle 0 (spansOf q.path)
    (q.path, r.matched) ::
      reconTrace spansOf (updState st q.path (st q.path ∪ r.matched.toFinset)) qs

lemma ccGo_matched_not_consumed (c : Finset ℕ) (li ti : ℚ) (tgt : Option ℚ)
    (l : List Triple) (start i : ℕ) (h : i ∈ (ccGo c li ti tgt start l).matched) : i ∉ c := by
  rw [ccGo_matched_eq] at h
  simp only [List.mem_map, List.mem_filter] at h
  obtain ⟨p, ⟨-, hpred⟩, hfst⟩ := h
  subst hfst
  simp only [ccKeep, Bool.and_eq_true, decide_eq_true_eq] at hpred
  exact hpred.1

lemma reconTrace_avoids_state (spansOf : String → List Triple) :
    ∀ (qs : List RQuery) (st : ConsumedState) (b : String × List ℕ),
      b ∈ reconTrace spansOf st qs → ∀ i ∈ b.2, i ∉ st b.1 := by
  intro qs
  induction qs with
  | nil => intro st b hb; simp [reconTrace] at hb
  | cons q rest ih =>
    intro st b hb
    simp only [reconTrace, List.mem_cons] at hb
    rcases hb with hb | hb
    · subst hb
      intro i hi
      exact ccGo_matched_not_consumed _ _ _ _ _ _ _ hi
    · intro i hi
      have hsub : st b.1 ⊆
          updState st q.path (st q.path ∪ (ccGo (st q.path) q.lengthIn q.tolIn q.targetAngle 0
            (spansOf q.path)).matched.toFinset) b.1 := by
        unfold updState
        by_cases hp : b.1 = q.path
        · rw [if_pos hp, hp]
          exact fun x hx => Finset.mem_union_left _ hx
        · rw [if_neg hp]
      intro hmem
      exact ih _ b hb i hi (hsub hmem)

/-- C3: within one reconciliation run, design-span consumption is exclusive —
for any two `_count_and_consume` invocations (in run order) addressing the same
PPLX file, the sets of span indices they count are disjoint, so a design span
consumed by one connection is never counted again by a later one. -/
theorem reconTrace_consumption_exclusive :
    ∀ (spansOf : String → List Triple) (qs : List RQuery),
      List.Pairwise (fun a b => a.1 = b.1 → ∀ i ∈ a.2, i ∉ b.2)
        (reconTrace spansOf (fun _ => ∅) qs) := by
  intro spansOf qs
  suffices h : ∀ st, List.Pairwise (fun a b => a.1 = b.1 → ∀ i ∈ a.2, i ∉ b.2)
      (reconTrace spansOf st qs) from h _
  induction qs with
  | nil => intro st; simp [reconTrace]
  | cons q rest ih =>
    intro st
    have hstep : reconTrace spansOf st (q :: rest) =
        (q.path,
          (ccGo (st q.path) q.lengthIn q.tolIn q.targetAngle 0 (spansOf q.path)).matched) ::
          reconTrace spansOf (updState st q.path (st q.path ∪
            (ccGo (st q.path) q.lengthIn q.tolIn q.targetAngle 0
              (spansOf q.path)).matched.toFinset)) rest := rfl
    rw [hstep]
    refine List.Pairwise.cons ?_ (ih _)
    intro b hb hpath i hi hib
    have hnot := reconTrace_avoids_state spansOf rest _ b hb i hib
    apply hnot
    have hpath' : q.path = b.1 := hpath
    have hi' : i ∈ (ccGo (st q.path) q.lengthIn q.tolIn q.targetAngle 0
        (spansOf q.path)).matched := hi
    rw [← hpath']
    show i ∈ updState st q.path (st q.path ∪
      (ccGo (st q.path) q.lengthIn q.tolIn q.targetAngle 0
        (spansOf q.path)).matched.toFinset) q.path
    unfold updState
    rw [if_pos rfl]
    exact Finset.mem_union_right _ (List.mem_toFinset.mpr hi')

/-!
## Design-file span extractor
(`src/core/handler.py`, `get_span_type_length_angle_triples_for_spans_qc`)

An XML element is modelled by its tag, its parsed `CoordinateA` attribute
(`_get_attr_float(e, "CoordinateA")`), its parsed `SpanType` and
`SpanDistanceInInches` attributes (`_parse_span_attrs`), and its children.
`findall(".//T")` enumerates strict descendants in document order.
-/

inductive XElem : Type where
  | mk (tag : String) (coordA : Option ℚ) (spanType : Option String)
       (lengthIn : Option ℚ) (children : List XElem)

def XElem.tag : XElem → String
  | .mk t _ _ _ _ => t

def XElem.coordA : XElem → Option ℚ
  | .mk _ a _ _ _ => a

def XElem.spanType : XElem → Option String
  | .mk _ _ st _ _ => st

def XElem.lengthIn : XElem → Option ℚ
  | .mk _ _ _ L _ => L

def XElem.children : XElem → List XElem
  | .mk _ _ _ _ cs => cs

mutual
/-- Strict descendants of an element in document order (`e.findall(".//*")`). -/
def descE : XElem → List XElem
  | .mk _ _ _ _ cs => descL cs

def descL : List XElem → List XElem
  | [] => []
  | c :: cs => c :: (descE c ++ descL cs)
end

mutual
/-- Strict descendants of an element, each paired with the `CoordinateA` of its
nearest `Insulator` ancestor at or below the traversal root (`none` when there
is no such ancestor) — the result of the `parent_map` walk-up of the extractor.
`ctx` is the context above the traversal root. -/
def bundlesCtxE (ctx : Option (Option ℚ)) : XElem → List (Option (Option ℚ) × XElem)
  | .mk tag a _ _ cs => bundlesCtxL (if tag = "Insulator" then some a else ctx) cs

def bundlesCtxL (ctx : Option (Option ℚ)) :
    List XElem → List (Option (Option ℚ) × XElem)
  | [] => []
  | c :: cs =>
    (if c.tag = "SpanBundle" then [(ctx, c)] else []) ++
      bundlesCtxE ctx c ++ bundlesCtxL ctx cs
end

mutual
/-- Strict descendants of an element in document order, each paired with a flag
telling whether some `SpanBundle` lies strictly between the traversal root and
it (`f` is the flag inherited from above the root).  This re-encodes the
`id(span) in spans_in_comm_bundles` bookkeeping of the extractor, which marks
exactly the spans that are descendants of some `SpanBundle`. -/
def descFlagE (f : Bool) : XElem → List (Bool × XElem)
  | .mk _ _ _ _ cs => descFlagL f cs

def descFlagL (f : Bool) : List XElem → List (Bool × XElem)
  | [] => []
  | c :: cs =>
    (f, c) :: (descFlagE (f || decide (c.tag = "SpanBundle")) c ++ descFlagL f cs)
end

/-- Resolution of a bundle's absolute angle in the extractor's first pass:
given the nearest parent `Insulator`'s `CoordinateA` context and the bundle's
own (relative) `CoordinateA`.  NOTE: in the `ins_angle`-only branch the source
returns `ins_angle` without normalizing it modulo `2π`. -/
def bundleAbs (ctx : Option (Option ℚ)) (rel : Option ℚ) : Option ℚ :=
  match ctx, rel with
  | some (some ia), some r => some (pymod (ia + r) twoPi)
  | some (some ia), none => some ia
  | some none, _ => none
  | none, some r => some (pymod r twoPi)
  | none, none => none

/-- A span parsed by `_parse_span_attrs` with truthy `SpanType`, a parsed
length, and a comm type key (`catv` / `fiber` / `telco`): exactly the spans
marked into `spans_in_comm_bundles` when they sit inside a bundle. -/
def isValidCommSpan (e : XElem) : Bool :=
  match e.spanType, e.lengthIn with
  | some st, some _ => !(decide (st = "")) && decide (pyLower st ∈ commTypes)
  | _, _ => false

/-- The `for span in bundle.findall(".//Span")` loop of the first pass:
emit one `(SpanType, length, bundle_absolute_angle)` triple per distinct comm
type key not yet seen in this bundle. -/
def bundleEmitGo (absA : Option ℚ) : List String → List XElem → List Triple
  | _, [] => []
  | seen, e :: rest =>
    match e.spanType, e.lengthIn with
    | some st, some L =>
      if st = "" then bundleEmitGo absA seen rest
      else
        let key := pyLower st
        if key ∈ commTypes then
          if key ∈ seen then bundleEmitGo absA seen rest
          else (st, L, absA) :: bundleEmitGo absA (key :: seen) rest
        else bundleEmitGo absA seen rest
    | _, _ => bundleEmitGo absA seen rest

/-- `bundle.findall(".//Span")`. -/
def bundleSpans (b : XElem) : List XElem :=
  (descE b).filter (fun e => decide (e.tag = "Span"))

/-- First pass of the extractor: over all `SpanBundle`s of the tree in document
order, emit one representative span per distinct comm type at the bundle's
resolved absolute angle. -/
def firstPass (root : XElem) : List Triple :=
  (bundlesCtxE none root).flatMap fun p =>
    bundleEmitGo (bundleAbs p.1 p.2.coordA) [] (bundleSpans p.2)

/-- `ins_base_bucket = round(math.degrees(ins_angle) * 2) if ins_angle is not
None else 0`. -/
def insBucket (a : Option ℚ) : ℤ :=
  match a with
  | some x => pyround (degreesQ x * 2)
  | none => 0

/-- Second-pass absolute span angle: span `CoordinateA` is relative to the
parent `Insulator`'s; all three available-branches normalize modulo `2π`. -/
def spanAbsAngle (insA spanA : Option ℚ) : Option ℚ :=
  match insA, spanA with
  | some i, some s2 => some (pymod (i + s2) twoPi)
  | some i, none => some (pymod i twoPi)
  | none, some s2 => some (pymod s2 twoPi)
  | none, none => none

/-- `angle_bucket = round(math.degrees(angle) * 2) if angle is not None else
None`. -/
def angleBucket (a : Option ℚ) : Option ℤ := a.map (fun x => pyround (degreesQ x * 2))

/-- One pre-dedup entry of the second pass: the composite dedup key
`(span_type.lower(), round(length), angle_bucket)`, the emitting insulator's
base-angle bucket, and the output triple. -/
structure DEntry : Type where
  key : String × ℤ × Option ℤ
  bucket : ℤ
  triple : Triple
  deriving DecidableEq

/-- The second-pass enumeration (`for pole ... for insulator ... for span ...`)
before deduplication, in document order: every `Span` under an `Insulator`
under a `WoodPole` that is not a bundled valid comm span, with its dedup key,
its insulator's base-angle bucket and its output triple. -/
def preDedup (root : XElem) : List DEntry :=
  (descFlagE false root).flatMap fun pp =>
    if pp.2.tag = "WoodPole" then
      (descFlagE pp.1 pp.2).flatMap fun pi =>
        if pi.2.tag = "Insulator" then
          let insA := pi.2.coordA
          (descFlagE pi.1 pi.2).filterMap fun ps =>
            if ps.2.tag = "Span" then
              if ps.1 && isValidCommSpan ps.2 then none
              else
                match ps.2.spanType, ps.2.lengthIn with
                | some st, some L =>
                  if st = "" then none
                  else
                    let a := spanAbsAngle insA ps.2.coordA
                    some ⟨(pyLower st, pyround L, angleBucket a), insBucket insA, (st, L, a)⟩
                | _, _ => none
            else none
        else []
    else []

/-- Association-list lookup for the `seen_dedup` dict. -/
def alookup : List ((String × ℤ × Option ℤ) × ℤ) → String × ℤ × Option ℤ → Option ℤ
  | [], _ => none
  | (k, v) :: rest, key => if key = k then some v else alookup rest key

/-- The dedup filter of the second pass: drop an entry whose key was first
emitted from an insulator with a different base-angle bucket
(`seen_dedup.setdefault` / `continue` logic). -/
def applyDedup : List DEntry → List ((String × ℤ × Option ℤ) × ℤ) → List Triple
  | [], _ => []
  | e :: rest, seen =>
    match alookup seen e.key with
    | some pb =>
      if pb ≠ e.bucket then applyDedup rest seen
      else e.triple :: applyDedup rest seen
    | none => e.triple :: applyDedup rest ((e.key, e.bucket) :: seen)

/-- The second pass of the extractor. -/
def secondPass (root : XElem) : List Triple := applyDedup (preDedup root) []

/-- `get_span_type_length_angle_triples_for_spans_qc`: first pass (bundled comm
spans) followed by the deduplicated second pass. -/
def spansQcTriples (root : XElem) : List Triple := firstPass root ++ secondPass root

/-- Deduplication as the spec words it: an entry is kept iff no earlier
processed entry has the same composite key, or the earliest one with the same
key came from an insulator with the same base-angle bucket; the accumulator
`pre` holds all previously processed entries. -/
def dedupSpecGo (pre : List DEntry) : List DEntry → List Triple
  | [] => []
  | e :: rest =>
    match pre.find? (fun e2 => decide (e2.key = e.key)) with
    | none => e.triple :: dedupSpecGo (pre ++ [e]) rest
    | some e2 =>
      if e2.bucket = e.bucket then e.triple :: dedupSpecGo (pre ++ [e]) rest
      else dedupSpecGo (pre ++ [e]) rest

/-- Spec-side statement of the second-pass dedup rule. -/
def dedupSpec (l : List DEntry) : List Triple := dedupSpecGo [] l

lemma applyDedup_eq_dedupSpecGo :
    ∀ (l : List DEntry) (seen : List ((String × ℤ × Option ℤ) × ℤ)) (pre : List DEntry),
      (∀ k, alookup seen k = (pre.find? fun e2 => decide (e2.key = k)).map DEntry.bucket) →
      applyDedup l seen = dedupSpecGo pre l := by
  intro l
  induction l with
  | nil => intro seen pre h; rfl
  | cons e rest ih =>
    intro seen pre h
    have hkey := h e.key
    cases hf : pre.find? (fun e2 => decide (e2.key = e.key)) with
    | none =>
      rw [hf] at hkey
      simp only [applyDedup, dedupSpecGo, hkey, hf, Option.map_none']
      congr 1
      apply ih
      intro k
      by_cases hk : k = e.key
      · subst hk
        simp only [alookup, if_pos rfl]
        rw [List.find?_append, hf]
        simp [List.find?]
      · have : alookup ((e.key, e.bucket) :: seen) k = alookup seen k := by
          simp [alookup, hk]
        rw [this, h k, List.find?_append]
        cases hg : pre.find? (fun e2 => decide (e2.key = k)) with
        | some x => simp
        | none =>
          have hne : ¬ (e.key = k) := fun hkk => hk hkk.symm
          simp [List.find?, hne]
    | some e2 =>
      rw [hf] at hkey
      have hinv : ∀ k, alookup seen k =
          ((pre ++ [e]).find? fun x => decide (x.key = k)).map DEntry.bucket := by
        intro k
        rw [h k, List.find?_append]
        cases hg : pre.find? (fun x => decide (x.key = k)) with
        | some x => simp
        | none =>
          have hne : ¬ (e.key = k) := by
            intro hkk
            rw [← hkk] at hg
            rw [hg] at hf
            cases hf
          simp [hg, List.find?, hne]
      simp only [applyDedup, dedupSpecGo, hkey, hf, Option.map_some']
      by_cases hb : e2.bucket = e.bucket
      · rw [if_neg (not_not_intro hb), if_pos hb]
        congr 1
        exact ih seen (pre ++ [e]) hinv
      · rw [if_pos hb, if_neg hb]
        exact ih seen (pre ++ [e]) hinv

/-- C5: non-bundle spans are deduplicated by the composite key (lowercased span
type, length rounded to the nearest inch, absolute bearing rounded to 0.5°):
the first insulator to emit a given key is remembered by its base-angle
bucket, a later emission of the same key from an insulator with a different
base-angle bucket is dropped, and emissions of the same key from insulators
sharing the base-angle bucket are all kept. -/
theorem secondPass_dedup_characterization :
    ∀ root : XElem, secondPass root = dedupSpec (preDedup root) := by
  intro root
  unfold secondPass dedupSpec
  exact applyDedup_eq_dedupSpecGo (preDedup root) [] [] (fun k => rfl)

/-- A span of the bundle with truthy type, parsed length, comm category and
type key `ty`. -/
def validCommOfKey (e : XElem) (ty : String) : Bool :=
  match e.spanType, e.lengthIn with
  | some st, some _ =>
    !(decide (st = "")) && decide (pyLower st ∈ commTypes) && decide (pyLower st = ty)
  | _, _ => false

lemma bundleEmitGo_angle (absA : Option ℚ) :
    ∀ (es : List XElem) (seen : List String) (tr : Triple),
      tr ∈ bundleEmitGo absA seen es → tr.2.2 = absA := by
  intro es
  induction es with
  | nil => intro seen tr htr; simp [bundleEmitGo] at htr
  | cons e es ih =>
    intro seen tr htr
    cases hst : e.spanType with
    | none =>
      simp only [bundleEmitGo, hst] at htr
      exact ih seen tr htr
    | some st =>
      cases hlen : e.lengthIn with
      | none =>
        simp only [bundleEmitGo, hst, hlen] at htr
        exact ih seen tr htr
      | some L =>
        simp only [bundleEmitGo, hst, hlen] at htr
        by_cases hemp : st = ""
        · rw [if_pos hemp] at htr
          exact ih seen tr htr
        · rw [if_neg hemp] at htr
          by_cases hcm : pyLower st ∈ commTypes
          · rw [if_pos hcm] at htr
            by_cases hseen : pyLower st ∈ seen
            · rw [if_pos hseen] at htr
              exact ih seen tr htr
            · rw [if_neg hseen] at htr
              rcases List.mem_cons.mp htr with h | h
              · subst h; rfl
              · exact ih _ tr h
          · rw [if_neg hcm] at htr
            exact ih seen tr htr

lemma bundleEmitGo_countP (absA : Option ℚ) (ty : String) :
    ∀ (es : List XElem) (seen : List String),
      (bundleEmitGo absA seen es).countP (fun tr => decide (pyLower tr.1 = ty)) =
        if ty ∉ seen ∧ ∃ e ∈ es, validCommOfKey e ty then 1 else 0 := by
  intro es
  induction es with
  | nil => intro seen; simp [bundleEmitGo]
  | cons e es ih =>
    intro seen
    cases hst : e.spanType with
    | none =>
      simp only [bundleEmitGo, hst]
      rw [ih seen]
      have hv : validCommOfKey e ty = false := by simp [validCommOfKey, hst]
      simp [hv]
    | some st =>
      cases hlen : e.lengthIn with
      | none =>
        simp only [bundleEmitGo, hst, hlen]
        rw [ih seen]
        have hv : validCommOfKey e ty = false := by simp [validCommOfKey, hst, hlen]
        simp [hv]
      | some L =>
        simp only [bundleEmitGo, hst, hlen]
        by_cases hemp : st = ""
        · rw [if_pos hemp, ih seen]
          have hv : validCommOfKey e ty = false := by simp [validCommOfKey, hst, hlen, hemp]
          simp [hv]
        · rw [if_neg hemp]
          by_cases hcm : pyLower st ∈ commTypes
          · rw [if_pos hcm]
            by_cases hseen : pyLower st ∈ seen
            · rw [if_pos hseen, ih seen]
              by_cases hty : pyLower st = ty
              · have hmem : ty ∈ seen := hty ▸ hseen
                simp [hmem]
              · have hv : validCommOfKey e ty = false := by
                  simp [validCommOfKey, hst, hlen, hty]
                simp [hv]
            · rw [if_neg hseen, List.countP_cons, ih (pyLower st :: seen)]
              by_cases hty : pyLower st = ty
              · have hclose : ty ∈ commTypes := hty ▸ hcm
                have h1 : ty ∈ pyLower st :: seen := by
                  rw [hty] at hseen ⊢; exact List.mem_cons_self _ _
                have h2 : ty ∉ seen := hty ▸ hseen
                have hv : validCommOfKey e ty = true := by
                  simp [validCommOfKey, hst, hlen, hemp, hty, hclose]
                simp [h1, h2, hty, hv]
              · have h1 : (ty ∈ pyLower st :: seen) ↔ ty ∈ seen := by
                  simp [List.mem_cons]
                  intro h; exact absurd h.symm hty
                have hv : validCommOfKey e ty = false := by
                  simp [validCommOfKey, hst, hlen, hty]
                simp [h1, hv, hty]
          · rw [if_neg hcm, ih seen]
            have hv : validCommOfKey e ty = false := by
              simp [validCommOfKey, hst, hlen, hcm]
            simp [hv]

/-- C4: for every `SpanBundle` occurrence of a design tree, the extractor's
first pass emits exactly one span per distinct valid comm type present among
the bundle's descendant spans, each carrying the bundle's resolved absolute
bearing (parent insulator angle plus bundle relative angle, normalized modulo
`2π`, when both are present) — regardless of how many spans of that type the
bundle contains and of the children's own angle values. -/
theorem bundle_collapse_one_per_type :
    ∀ (root : XElem) (ctx : Option (Option ℚ)) (b : XElem),
      (ctx, b) ∈ bundlesCtxE none root →
      (firstPass root = (bundlesCtxE none root).flatMap (fun p =>
          bundleEmitGo (bundleAbs p.1 p.2.coordA) [] (bundleSpans p.2)) ∧
       (∀ tr ∈ bundleEmitGo (bundleAbs ctx b.coordA) [] (bundleSpans b),
          tr.2.2 = bundleAbs ctx b.coordA) ∧
       (∀ ty, (bundleEmitGo (bundleAbs ctx b.coordA) [] (bundleSpans b)).countP
            (fun tr => decide (pyLower tr.1 = ty)) =
          if ∃ e ∈ bundleSpans b, validCommOfKey e ty then 1 else 0) ∧
       (∀ ia r, ctx = some (some ia) → b.coordA = some r →
          bundleAbs ctx b.coordA = some (pymod (ia + r) twoPi))) := by
  intro root ctx b _
  refine ⟨rfl, bundleEmitGo_angle _ _ _, ?_, ?_⟩
  · intro ty
    rw [bundleEmitGo_countP]
    simp
  · intro ia r hctx hb
    rw [hctx, hb]
    rfl

/-- Bundle of the C4 witness: three CATV child spans with different (wrong)
individual angles. -/
def c4Bundle : XElem :=
  .mk "SpanBundle" (some 0) none none
    [ .mk "Span" (some 1) (some "CATV") (some 100) [],
      .mk "Span" (some 2) (some "CATV") (some 100) [],
      .mk "Span" (some 3) (some "CATV") (some 100) [] ]

/-- Design tree of the C4 witness. -/
def c4Tree : XElem :=
  .mk "PPL" none none none
    [ .mk "WoodPole" none none none
        [ .mk "Insulator" (some 0) none none [c4Bundle] ] ]

/-- Witness for C4 at a concrete bundle with three CATV children. -/
theorem bundle_collapse_one_per_type_witness :
    ((some (some 0), c4Bundle) ∈ bundlesCtxE none c4Tree) ∧
    (firstPass c4Tree = (bundlesCtxE none c4Tree).flatMap (fun p =>
        bundleEmitGo (bundleAbs p.1 p.2.coordA) [] (bundleSpans p.2)) ∧
     (∀ tr ∈ bundleEmitGo (bundleAbs (some (some 0)) c4Bundle.coordA) [] (bundleSpans c4Bundle),
        tr.2.2 = bundleAbs (some (some 0)) c4Bundle.coordA) ∧
     (∀ ty, (bundleEmitGo (bundleAbs (some (some 0)) c4Bundle.coordA) []
          (bundleSpans c4Bundle)).countP (fun tr => decide (pyLower tr.1 = ty)) =
        if ∃ e ∈ bundleSpans c4Bundle, validCommOfKey e ty then 1 else 0) ∧
     (∀ ia r, (some (some 0) : Option (Option ℚ)) = some (some ia) →
        c4Bundle.coordA = some r →
        bundleAbs (some (some 0)) c4Bundle.coordA = some (pymod (ia + r) twoPi))) := by
  have hmem : (some (some 0), c4Bundle) ∈ bundlesCtxE none c4Tree := by
    have h : bundlesCtxE none c4Tree = [(some (some 0), c4Bundle)] := rfl
    rw [h]
    exact List.mem_singleton_self _
  exact ⟨hmem, bundle_collapse_one_per_type c4Tree (some (some 0)) c4Bundle hmem⟩

/-- Design tree exhibiting the C6 normalization bug: an `Insulator` whose
`CoordinateA` is `7` (outside `[0, 2π)`) holding a `SpanBundle` with no
`CoordinateA` of its own and one valid CATV child span. -/
def c6Tree : XElem :=
  .mk "PPL" none none none
    [ .mk "WoodPole" none none none
        [ .mk "Insulator" (some 7) none none
            [ .mk "SpanBundle" none none none
                [ .mk "Span" none (some "CATV") (some 100) [] ] ] ] ]

/-- C6 (code bug): the bundle branch of
`get_span_type_length_angle_triples_for_spans_qc` that inherits a bare
insulator angle does not normalize it modulo `2π` (unlike the corresponding
second-pass branch): on `c6Tree` the extractor returns a bearing of `7`, which
is not in `[0, 2π)` — contradicting the documented invariant that every
emitted bearing is normalized. -/
theorem spansQc_bearing_not_normalized_bug :
    spansQcTriples c6Tree = [("CATV", 100, some 7)] ∧
      ∃ tr ∈ spansQcTriples c6Tree, ∃ a, tr.2.2 = some a ∧ ¬ (0 ≤ a ∧ a < twoPi) := by
  have h : spansQcTriples c6Tree = [("CATV", 100, some 7)] := rfl
  refine ⟨h, ("CATV", 100, some 7), ?_, 7, rfl, ?_⟩
  · rw [h]
    exact List.mem_singleton_self _
  · rintro ⟨-, hlt⟩
    have h2 : twoPi ≤ 7 := by norm_num [twoPi, mathPi]
    exact absurd hlt (not_lt.mpr h2)

/-!
## Shapefile nearest-line query
(`src/core/wire_spec_from_excel.py`, `_ShapefileLayer.query` /
`_np_point_to_segments_dist2` / `_build_result`)

A loaded layer holds, per feature, its polyline point list, its bounding box
(min/max of the coordinates) and its attribute record.  Features with an empty
point list are dropped at load time (`if not sr.points: continue`), so every
loaded feature has at least one point; the `minD2` fallback value for an empty
point list is never reached for a loaded layer.
-/

/-- Squared distance from `(px, py)` to one segment, with the degenerate-segment
handling of `_np_point_to_segments_dist2` (`safe_len2` / `t = 0`). -/
def segD2 (px py : ℚ) (sg : (ℚ × ℚ) × (ℚ × ℚ)) : ℚ :=
  let x1 := sg.1.1
  let y1 := sg.1.2
  let dx := sg.2.1 - x1
  let dy := sg.2.2 - y1
  let len2 := dx * dx + dy * dy
  let safe := if len2 = 0 then 1 else len2
  let t0 := ((px - x1) * dx + (py - y1) * dy) / safe
  let t1 := min 1 (max 0 t0)
  let t := if len2 = 0 then 0 else t1
  (px - (x1 + t * dx)) ^ 2 + (py - (y1 + t * dy)) ^ 2

/-- `_precompute_segments`: consecutive point pairs; a single-point feature
yields one degenerate segment. -/
def segsOf (ps : List (ℚ × ℚ)) : List ((ℚ × ℚ) × (ℚ × ℚ)) :=
  if ps.length < 2 then ps.zip ps else ps.zip ps.tail

/-- `_np_point_to_segments_dist2`: minimum squared distance from the point to
the feature's segments (the empty-feature value is never reached for a loaded
layer). -/
def minD2 (px py : ℚ) (ps : List (ℚ × ℚ)) : ℚ :=
  match segsOf ps with
  | [] => 0
  | sg :: rest => rest.foldl (fun acc sg2 => min acc (segD2 px py sg2)) (segD2 px py sg)

/-- `_SEARCH_MARGIN = 500`. -/
def searchMargin : ℚ := 500

/-- Bounding box `(xmin, ymin, xmax, ymax)` of a feature's points. -/
def bboxOf (ps : List (ℚ × ℚ)) : ℚ × ℚ × ℚ × ℚ :=
  match ps with
  | [] => (0, 0, 0, 0)
  | p :: rest =>
    rest.foldl (fun bb q =>
      (min bb.1 q.1, min bb.2.1 q.2, max bb.2.2.1 q.1, max bb.2.2.2 q.2))
      (p.1, p.2, p.1, p.2)

/-- The vectorized bbox-overlap mask of `query`:
`(bbox.xmax >= lo_x) & (bbox.xmin <= hi_x) & (bbox.ymax >= lo_y) & (bbox.ymin <= hi_y)`. -/
def bboxOverlap (bb : ℚ × ℚ × ℚ × ℚ) (lox loy hix hiy : ℚ) : Bool :=
  decide (lox ≤ bb.2.2.1) && decide (bb.1 ≤ hix) &&
    decide (loy ≤ bb.2.2.2) && decide (bb.2.1 ≤ hiy)

/-- Candidate feature indices of `query` (the deterministic non-R-tree path):
indices whose bbox overlaps the margin-expanded query box, in ascending
(load) order; when none survive, all indices. -/
def candidatesOf (feats : List (List (ℚ × ℚ))) (x1 y1 x2 y2 : ℚ) : List ℕ :=
  let lox := min x1 x2 - searchMargin
  let loy := min y1 y2 - searchMargin
  let hix := max x1 x2 + searchMargin
  let hiy := max y1 y2 + searchMargin
  let cands := (List.range feats.length).filter fun i =>
    bboxOverlap (bboxOf (feats.getD i [])) lox loy hix hiy
  if cands = [] then List.range feats.length else cands

/-- The candidate loop of `query`: keep the best `(best_i, best_d1_2,
best_d2_2)`, replaced only on strictly smaller `score = max(d1_2, d2_2)`
(`best_score` starts at `inf`, so the first candidate is always adopted). -/
def qfold (feats : List (List (ℚ × ℚ))) (x1 y1 x2 y2 : ℚ) :
    List ℕ → Option (ℕ × ℚ × ℚ) → Option (ℕ × ℚ × ℚ)
  | [], best => best
  | i :: rest, best =>
    let d1 := minD2 x1 y1 (feats.getD i [])
    let d2 := minD2 x2 y2 (feats.getD i [])
    match best with
    | none => qfold feats x1 y1 x2 y2 rest (some (i, d1, d2))
    | some b =>
      if max d1 d2 < max b.2.1 b.2.2 then qfold feats x1 y1 x2 y2 rest (some (i, d1, d2))
      else qfold feats x1 y1 x2 y2 rest (some b)

/-- `_ShapefileLayer.query` up to `_build_result`: `None` on an empty layer,
else the winning `(best_i, best_d1_2, best_d2_2)`. -/
def queryCore (feats : List (List (ℚ × ℚ))) (x1 y1 x2 y2 : ℚ) : Option (ℕ × ℚ × ℚ) :=
  if feats.length = 0 then none
  else qfold feats x1 y1 x2 y2 (candidatesOf feats x1 y1 x2 y2) none

/-- The result record built by `_build_result` (distances kept squared;
`dist1_ft`/`dist2_ft` are their square roots). -/
structure QueryResult (α : Type) : Type where
  lineIndex : Option ℕ
  dist1Sq : Option ℚ
  dist2Sq : Option ℚ
  attrs : Option α

/-- `_build_result(best_i, best_d1_2, best_d2_2)` with the record list. -/
def buildResult {α : Type} (recs : List α) : Option (ℕ × ℚ × ℚ) → QueryResult α
  | none => ⟨none, none, none, none⟩
  | some t => ⟨some t.1, some t.2.1, some t.2.2, recs.get? t.1⟩

/-- Full `query`: candidate scan then result building. -/
def layerQuery {α : Type} (feats : List (List (ℚ × ℚ))) (recs : List α)
    (x1 y1 x2 y2 : ℚ) : QueryResult α :=
  buildResult recs (queryCore feats x1 y1 x2 y2)

/-- Score of candidate `i` for the two query points: the max of the two
min-squared-distances. -/
def scoreOf (feats : List (List (ℚ × ℚ))) (x1 y1 x2 y2 : ℚ) (i : ℕ) : ℚ :=
  max (minD2 x1 y1 (feats.getD i [])) (minD2 x2 y2 (feats.getD i []))

lemma qfold_spec (feats : List (List (ℚ × ℚ))) (x1 y1 x2 y2 : ℚ) :
    ∀ (l : List ℕ) (bi : ℕ),
      ∃ i, qfold feats x1 y1 x2 y2 l
          (some (bi, minD2 x1 y1 (feats.getD bi []), minD2 x2 y2 (feats.getD bi []))) =
          some (i, minD2 x1 y1 (feats.getD i []), minD2 x2 y2 (feats.getD i [])) ∧
        ((i = bi ∧ ∀ j ∈ l, scoreOf feats x1 y1 x2 y2 bi ≤ scoreOf feats x1 y1 x2 y2 j) ∨
         (∃ l₁ l₂, l = l₁ ++ i :: l₂ ∧
            scoreOf feats x1 y1 x2 y2 i < scoreOf feats x1 y1 x2 y2 bi ∧
            (∀ j ∈ l₁, scoreOf feats x1 y1 x2 y2 i < scoreOf feats x1 y1 x2 y2 j) ∧
            (∀ j ∈ l₂, scoreOf feats x1 y1 x2 y2 i ≤ scoreOf feats x1 y1 x2 y2 j))) := by
  intro l
  induction l with
  | nil =>
    intro bi
    exact ⟨bi, rfl, Or.inl ⟨rfl, by simp⟩⟩
  | cons j rest ih =>
    intro bi
    by_cases hlt : scoreOf feats x1 y1 x2 y2 j < scoreOf feats x1 y1 x2 y2 bi
    · have hstep : qfold feats x1 y1 x2 y2 (j :: rest)
          (some (bi, minD2 x1 y1 (feats.getD bi []), minD2 x2 y2 (feats.getD bi []))) =
          qfold feats x1 y1 x2 y2 rest
            (some (j, minD2 x1 y1 (feats.getD j []), minD2 x2 y2 (feats.getD j []))) := by
        simp only [qfold]
        rw [if_pos (show minD2 x1 y1 (feats.getD j []) ⊔ minD2 x2 y2 (feats.getD j []) <
          minD2 x1 y1 (feats.getD bi []) ⊔ minD2 x2 y2 (feats.getD bi []) from hlt)]
      obtain ⟨i, heq, hdisj⟩ := ih j
      refine ⟨i, hstep.trans heq, Or.inr ?_⟩
      rcases hdisj with ⟨hi, hall⟩ | ⟨l₁, l₂, hsplit, hib, h₁, h₂⟩
      · subst hi
        exact ⟨[], rest, rfl, hlt, by simp, hall⟩
      · refine ⟨j :: l₁, l₂, by simp [hsplit], lt_trans hib hlt, ?_, h₂⟩
        intro k hk
        rcases List.mem_cons.mp hk with rfl | hk
        · exact hib
        · exact h₁ k hk
    · have hstep : qfold feats x1 y1 x2 y2 (j :: rest)
          (some (bi, minD2 x1 y1 (feats.getD bi []), minD2 x2 y2 (feats.getD bi []))) =
          qfold feats x1 y1 x2 y2 rest
            (some (bi, minD2 x1 y1 (feats.getD bi []), minD2 x2 y2 (feats.getD bi []))) := by
        simp only [qfold]
        rw [if_neg (show ¬ (minD2 x1 y1 (feats.getD j []) ⊔ minD2 x2 y2 (feats.getD j []) <
          minD2 x1 y1 (feats.getD bi []) ⊔ minD2 x2 y2 (feats.getD bi [])) from hlt)]
      obtain ⟨i, heq, hdisj⟩ := ih bi
      refine ⟨i, hstep.trans heq, ?_⟩
      rcases hdisj with ⟨hi, hall⟩ | ⟨l₁, l₂, hsplit, hib, h₁, h₂⟩
      · refine Or.inl ⟨hi, ?_⟩
        intro k hk
        rcases List.mem_cons.mp hk with rfl | hk
        · exact not_lt.mp hlt
        · exact hall k hk
      · refine Or.inr ⟨j :: l₁, l₂, by simp [hsplit], hib, ?_, h₂⟩
        intro k hk
        rcases List.mem_cons.mp hk with rfl | hk
        · exact lt_of_lt_of_le hib (not_lt.mp hlt)
        · exact h₁ k hk

lemma candidatesOf_sorted (feats : List (List (ℚ × ℚ))) (x1 y1 x2 y2 : ℚ) :
    List.Pairwise (· < ·) (candidatesOf feats x1 y1 x2 y2) := by
  simp only [candidatesOf]
  have hr : List.Pairwise (· < ·) (List.range feats.length) := List.pairwise_lt_range _
  split
  · exact hr
  · exact List.Pairwise.filter _ hr

lemma candidatesOf_ne_nil (feats : List (List (ℚ × ℚ))) (x1 y1 x2 y2 : ℚ)
    (h : feats ≠ []) : candidatesOf feats x1 y1 x2 y2 ≠ [] := by
  simp only [candidatesOf]
  split
  · simp only [ne_eq, List.range_eq_nil]
    exact fun hc => h (List.length_eq_zero.mp hc)
  · assumption

/-- C7: on a layer with at least one (nonempty-polyline) feature, `query`
scores each candidate feature as the max of the two point-to-feature minimum
squared distances, returns the candidate with the strictly lowest score, and
breaks ties by the first-encountered (lowest, i.e. first-loaded) index — the
candidate enumeration is ascending, so the result is deterministic given the
feature load order. -/
theorem layer_query_nearest_first :
    ∀ (feats : List (List (ℚ × ℚ))) (x1 y1 x2 y2 : ℚ),
      feats ≠ [] → (∀ f ∈ feats, f ≠ []) →
      ∃ i, queryCore feats x1 y1 x2 y2 =
          some (i, minD2 x1 y1 (feats.getD i []), minD2 x2 y2 (feats.getD i [])) ∧
        i ∈ candidatesOf feats x1 y1 x2 y2 ∧
        (∀ j ∈ candidatesOf feats x1 y1 x2 y2,
            scoreOf feats x1 y1 x2 y2 i ≤ scoreOf feats x1 y1 x2 y2 j) ∧
        (∀ j ∈ candidatesOf feats x1 y1 x2 y2,
            scoreOf feats x1 y1 x2 y2 j = scoreOf feats x1 y1 x2 y2 i → i ≤ j) := by
  intro feats x1 y1 x2 y2 hne _
  have hlen : ¬ feats.length = 0 := fun h => hne (List.length_eq_zero.mp h)
  have hcands := candidatesOf_ne_nil feats x1 y1 x2 y2 hne
  have hsort := candidatesOf_sorted feats x1 y1 x2 y2
  obtain ⟨c, rest, hc⟩ : ∃ c rest, candidatesOf feats x1 y1 x2 y2 = c :: rest := by
    cases hcl : candidatesOf feats x1 y1 x2 y2 with
    | nil => exact absurd hcl hcands
    | cons a b => exact ⟨a, b, rfl⟩
  rw [hc] at hsort
  rw [hc]
  obtain ⟨hchead, hrestsort⟩ := List.pairwise_cons.mp hsort
  have hq : queryCore feats x1 y1 x2 y2 =
      qfold feats x1 y1 x2 y2 rest
        (some (c, minD2 x1 y1 (feats.getD c []), minD2 x2 y2 (feats.getD c []))) := by
    unfold queryCore
    rw [if_neg hlen, hc]
    rfl
  obtain ⟨i, heq, hdisj⟩ := qfold_spec feats x1 y1 x2 y2 rest c
  rcases hdisj with ⟨hi, hall⟩ | ⟨l₁, l₂, hsplit, hib, h₁, h₂⟩
  · refine ⟨i, hq.trans heq, ?_, ?_, ?_⟩
    · rw [hi]
      exact List.mem_cons_self _ _
    · intro j hj
      rcases List.mem_cons.mp hj with rfl | hj
      · rw [hi]
      · rw [hi]
        exact hall j hj
    · intro j hj _
      rcases List.mem_cons.mp hj with rfl | hj
      · rw [hi]
      · rw [hi]
        exact le_of_lt (hchead j hj)
  · have himem : i ∈ rest := by
      rw [hsplit]
      exact List.mem_append.mpr (Or.inr (List.mem_cons_self _ _))
    have hil₂ : ∀ j ∈ l₂, i < j := by
      rw [hsplit] at hrestsort
      have := (List.pairwise_append.mp hrestsort).2.1
      exact fun j hj => (List.pairwise_cons.mp this).1 j hj
    refine ⟨i, hq.trans heq, List.mem_cons_of_mem _ himem, ?_, ?_⟩
    · intro j hj
      rcases List.mem_cons.mp hj with rfl | hj
      · exact le_of_lt hib
      · rw [hsplit] at hj
        rcases List.mem_append.mp hj with hj | hj
        · exact le_of_lt (h₁ j hj)
        · rcases List.mem_cons.mp hj with rfl | hj
          · exact le_refl _
          · exact h₂ j hj
    · intro j hj htie
      rcases List.mem_cons.mp hj with rfl | hj
      · exact absurd htie (ne_of_gt hib)
      · rw [hsplit] at hj
        rcases List.mem_append.mp hj with hj | hj
        · exact absurd htie (ne_of_gt (h₁ j hj))
        · rcases List.mem_cons.mp hj with rfl | hj
          · exact le_refl _
          · exact le_of_lt (hil₂ j hj)

/-- Witness for C7 at a concrete two-feature layer and query pair. -/
theorem layer_query_nearest_first_witness :
    (([[(0, 0)], [(0, 0)]] : List (List (ℚ × ℚ))) ≠ [] ∧
      (∀ f ∈ ([[(0, 0)], [(0, 0)]] : List (List (ℚ × ℚ))), f ≠ [])) ∧
    (∃ i, queryCore [[(0, 0)], [(0, 0)]] 1 0 1 0 =
        some (i, minD2 1 0 (([[(0, 0)], [(0, 0)]] : List (List (ℚ × ℚ))).getD i []),
          minD2 1 0 (([[(0, 0)], [(0, 0)]] : List (List (ℚ × ℚ))).getD i [])) ∧
      i ∈ candidatesOf [[(0, 0)], [(0, 0)]] 1 0 1 0 ∧
      (∀ j ∈ candidatesOf [[(0, 0)], [(0, 0)]] 1 0 1 0,
          scoreOf [[(0, 0)], [(0, 0)]] 1 0 1 0 i ≤ scoreOf [[(0, 0)], [(0, 0)]] 1 0 1 0 j) ∧
      (∀ j ∈ candidatesOf [[(0, 0)], [(0, 0)]] 1 0 1 0,
          scoreOf [[(0, 0)], [(0, 0)]] 1 0 1 0 j = scoreOf [[(0, 0)], [(0, 0)]] 1 0 1 0 i →
            i ≤ j)) := by
  have h1 : ([[(0, 0)], [(0, 0)]] : List (List (ℚ × ℚ))) ≠ [] := by simp
  have h2 : ∀ f ∈ ([[(0, 0)], [(0, 0)]] : List (List (ℚ × ℚ))), f ≠ [] := by
    intro f hf
    rcases List.mem_cons.mp hf with rfl | hf
    · simp
    · rcases List.mem_cons.mp hf with rfl | hf
      · simp
      · simp at hf
  exact ⟨⟨h1, h2⟩, layer_query_nearest_first [[(0, 0)], [(0, 0)]] 1 0 1 0 h1 h2⟩

lemma qfold_swap (feats : List (List (ℚ × ℚ))) (x1 y1 x2 y2 : ℚ) :
    ∀ (l : List ℕ) (b : Option (ℕ × ℚ × ℚ)),
      qfold feats x2 y2 x1 y1 l (b.map fun t => (t.1, t.2.2, t.2.1)) =
        (qfold feats x1 y1 x2 y2 l b).map fun t => (t.1, t.2.2, t.2.1) := by
  intro l
  induction l with
  | nil => intro b; cases b <;> rfl
  | cons j rest ih =>
    intro b
    cases b with
    | none =>
      exact ih (some (j, minD2 x1 y1 (feats.getD j []), minD2 x2 y2 (feats.getD j [])))
    | some t =>
      obtain ⟨bi, b1, b2⟩ := t
      show qfold feats x2 y2 x1 y1 (j :: rest) (some (bi, b2, b1)) =
        (qfold feats x1 y1 x2 y2 (j :: rest) (some (bi, b1, b2))).map
          fun t => (t.1, t.2.2, t.2.1)
      by_cases hlt : minD2 x1 y1 (feats.getD j []) ⊔ minD2 x2 y2 (feats.getD j []) < b1 ⊔ b2
      · have hlt2 : minD2 x2 y2 (feats.getD j []) ⊔ minD2 x1 y1 (feats.getD j []) < b2 ⊔ b1 := by
          rw [sup_comm (minD2 x2 y2 (feats.getD j [])) (minD2 x1 y1 (feats.getD j [])),
            sup_comm b2 b1]
          exact hlt
        have e1 : qfold feats x2 y2 x1 y1 (j :: rest) (some (bi, b2, b1)) =
            qfold feats x2 y2 x1 y1 rest
              (some (j, minD2 x2 y2 (feats.getD j []), minD2 x1 y1 (feats.getD j []))) := by
          simp only [qfold]
          rw [if_pos hlt2]
        have e2 : qfold feats x1 y1 x2 y2 (j :: rest) (some (bi, b1, b2)) =
            qfold feats x1 y1 x2 y2 rest
              (some (j, minD2 x1 y1 (feats.getD j []), minD2 x2 y2 (feats.getD j []))) := by
          simp only [qfold]
          rw [if_pos hlt]
        rw [e1, e2]
        exact ih (some (j, minD2 x1 y1 (feats.getD j []), minD2 x2 y2 (feats.getD j [])))
      · have hlt2 : ¬ (minD2 x2 y2 (feats.getD j []) ⊔ minD2 x1 y1 (feats.getD j []) <
            b2 ⊔ b1) := by
          rw [sup_comm (minD2 x2 y2 (feats.getD j [])) (minD2 x1 y1 (feats.getD j [])),
            sup_comm b2 b1]
          exact hlt
        have e1 : qfold feats x2 y2 x1 y1 (j :: rest) (some (bi, b2, b1)) =
            qfold feats x2 y2 x1 y1 rest (some (bi, b2, b1)) := by
          simp only [qfold]
          rw [if_neg hlt2]
        have e2 : qfold feats x1 y1 x2 y2 (j :: rest) (some (bi, b1, b2)) =
            qfold feats x1 y1 x2 y2 rest (some (bi, b1, b2)) := by
          simp only [qfold]
          rw [if_neg hlt]
        rw [e1, e2]
        exact ih (some (bi, b1, b2))

lemma candidatesOf_swap (feats : List (List (ℚ × ℚ))) (x1 y1 x2 y2 : ℚ) :
    candidatesOf feats x2 y2 x1 y1 = candidatesOf feats x1 y1 x2 y2 := by
  simp only [candidatesOf]
  rw [min_comm x2 x1, min_comm y2 y1, max_comm x2 x1, max_comm y2 y1]

/-- C10: swapping the two projected query points leaves the selected feature
(`line_index`) and the returned attribute record unchanged and exchanges the
two endpoint distances (both as the stored squared distances and as the
`dist1_ft` / `dist2_ft` square roots) — the match is symmetric in the
unordered point pair. -/
theorem layer_query_point_swap_symmetric {α : Type} :
    ∀ (feats : List (List (ℚ × ℚ))) (recs : List α) (x1 y1 x2 y2 : ℚ),
      (layerQuery feats recs x2 y2 x1 y1).lineIndex =
          (layerQuery feats recs x1 y1 x2 y2).lineIndex ∧
      (layerQuery feats recs x2 y2 x1 y1).attrs =
          (layerQuery feats recs x1 y1 x2 y2).attrs ∧
      (layerQuery feats recs x2 y2 x1 y1).dist1Sq =
          (layerQuery feats recs x1 y1 x2 y2).dist2Sq ∧
      (layerQuery feats recs x2 y2 x1 y1).dist2Sq =
          (layerQuery feats recs x1 y1 x2 y2).dist1Sq ∧
      ((layerQuery feats recs x2 y2 x1 y1).dist1Sq.map fun d => Real.sqrt (d : ℝ)) =
          ((layerQuery feats recs x1 y1 x2 y2).dist2Sq.map fun d => Real.sqrt (d : ℝ)) ∧
      ((layerQuery feats recs x2 y2 x1 y1).dist2Sq.map fun d => Real.sqrt (d : ℝ)) =
          ((layerQuery feats recs x1 y1 x2 y2).dist1Sq.map fun d => Real.sqrt (d : ℝ)) := by
  intro feats recs x1 y1 x2 y2
  have hq : queryCore feats x2 y2 x1 y1 =
      (queryCore feats x1 y1 x2 y2).map fun t => (t.1, t.2.2, t.2.1) := by
    unfold queryCore
    by_cases h0 : feats.length = 0
    · rw [if_pos h0, if_pos h0]
      rfl
    · rw [if_neg h0, if_neg h0, candidatesOf_swap]
      exact qfold_swap feats x1 y1 x2 y2 (candidatesOf feats x1 y1 x2 y2) none
  cases hres : queryCore feats x1 y1 x2 y2 with
  | none => simp [layerQuery, buildResult, hq, hres]
  | some t =>
    obtain ⟨i, d1, d2⟩ := t
    simp [layerQuery, buildResult, hq, hres]

/-!
## Wire-spec comparator: design-file selection
(`src/core/wire_spec_from_excel.py`, `build_wire_spec_comparison` /
`_pole_order`; same selection logic in the top-level `wire_spec_from_excel.py`)

String plumbing is modelled for the stripped SCID strings the code produces:
`s.split()[0]` is the leading run of non-whitespace characters, and Python
`int()` is modelled for unsigned digit strings.
-/

/-- Python `int()` restricted to nonempty digit strings (SCID tokens). -/
def pyParseNat (s : String) : Option ℕ :=
  if s ≠ "" ∧ s.data.all (fun c => c.isDigit) then
    some (s.data.foldl (fun acc c => acc * 10 + (c.toNat - 48)) 0)
  else none

/-- `(s.split() or [""])[0]` for a stripped string: its leading
non-whitespace token. -/
def baseScid (s : String) : String := ⟨s.data.takeWhile (fun c => !c.isWhitespace)⟩

/-- The sort key `(0, int)` / `(1, str)` of `_pole_order`. -/
inductive PoleKey : Type where
  | num (n : ℕ)
  | str (s : String)

/-- `_pole_order(scid)`: numeric SCIDs sort first and numerically, everything
else by the full string. -/
def poleOrder (s : String) : PoleKey :=
  if s = "" then .num 0
  else
    match pyParseNat (baseScid s) with
    | some n => .num n
    | none => .str s

/-- Python tuple comparison `_pole_order(s1) <= _pole_order(s2)`. -/
def poleOrderLe : PoleKey → PoleKey → Bool
  | .num a, .num b => decide (a ≤ b)
  | .num _, .str _ => true
  | .str _, .num _ => false
  | .str a, .str b => decide (a ≤ b)

/-- The lower-ordered pole of a pair (the code's
`if _pole_order(s1) <= _pole_order(s2)` normalization). -/
def lowerPole (s1 s2 : String) : String :=
  if poleOrderLe (poleOrder s1) (poleOrder s2) then s1 else s2

/-- Python `a or b` on `scid_to_pplx.get(...)` results (`None` and the empty
string are falsy). -/
def pyOrOpt (a b : Option String) : Option String :=
  match a with
  | some s => if s = "" then b else some s
  | none => b

/-- `pplx_path = scid_to_pplx.get(base1) or scid_to_pplx.get(base2)`: the
design file consulted by `build_wire_spec_comparison` for a connection whose
endpoint SCIDs are `scid1`, `scid2` in the connection's node order. -/
def selectPplxPath (m : String → Option String) (scid1 scid2 : String) : Option String :=
  pyOrOpt (m (baseScid scid1)) (m (baseScid scid2))

/-- Point-wise update of a string-valued dict modelled as a function. -/
def updStr (f : String → String) (k v : String) : String → String :=
  fun s => if s = k then v else f s

/-- The wire types of `pplx_vals`. -/
def wireTypes : List String := ["Primary", "Neutral", "Secondary"]

/-- The `best_len` scan: among a type's span lengths, the one closest to the
connection's span length within the 15 % relative tolerance. -/
def bestLen (spanIn : ℚ) : List ℚ → Option ℚ → Option ℚ
  | [], best => best
  | ln :: rest, best =>
    if |ln - spanIn| / max spanIn 1 ≤ 15 / 100 then
      match best with
      | none => bestLen spanIn rest (some ln)
      | some b =>
        if |ln - spanIn| < |b - spanIn| then bestLen spanIn rest (some ln)
        else bestLen spanIn rest (some b)
    else bestLen spanIn rest best

/-- `lengths.get(L, "")` on the per-type `{length: conductor}` dict. -/
def lookupLen (lengths : List (ℚ × String)) (L : ℚ) : String :=
  match lengths.find? (fun p => decide (p.1 = L)) with
  | some p => p.2
  | none => ""

/-- `min(by_type[stype])` over the dict's keys. -/
def listMinQ : List ℚ → Option ℚ
  | [] => none
  | x :: rest => some (rest.foldl min x)

/-- The per-connection design-side values of `build_wire_spec_comparison`:
`pplx_vals` starts empty, and is filled only when a design file was selected
(`if pplx_path:`) — by best-length matching when the connection has a span
distance, else from each type's smallest length. -/
def designVals (m : String → Option String)
    (byTypeOf : String → List (String × List (ℚ × String)))
    (spanIn : Option ℚ) (scid1 scid2 : String) : String → String :=
  match selectPplxPath m scid1 scid2 with
  | none => fun _ => ""
  | some p =>
    if p = "" then fun _ => ""
    else
      let byType := byTypeOf p
      match spanIn with
      | some si =>
        byType.foldl (fun vals item =>
          if item.1 ∈ wireTypes then
            match bestLen si (item.2.map Prod.fst) none with
            | some bl => updStr vals item.1 (lookupLen item.2 bl)
            | none => vals
          else vals) (fun _ => "")
      | none =>
        wireTypes.foldl (fun vals st =>
          match byType.find? (fun it => decide (it.1 = st)) with
          | some it =>
            match listMinQ (it.2.map Prod.fst) with
            | some fl => updStr vals st (lookupLen it.2 fl)
            | none => vals
          | none => vals) (fun _ => "")

/-- SCID-to-design-file map of the C9 counterexample: poles 002 and 003 both
have design files. -/
def c9Map : String → Option String :=
  fun s => if s = "002" then some "002.pplx" else if s = "003" then some "003.pplx" else none

/-- C9 counterexample: for a connection listing pole 003 as its first node and
pole 002 as its second, both poles having design files, the comparator
consults 003's design file — not that of the lower-ordered pole 002 as the
claim states. -/
theorem wireSpec_design_selection_counterexample :
    lowerPole "003" "002" = "002" ∧
    c9Map (baseScid "002") = some "002.pplx" ∧
    c9Map (baseScid "003") = some "003.pplx" ∧
    selectPplxPath c9Map "003" "002" = some "003.pplx" ∧
    selectPplxPath c9Map "003" "002" ≠ c9Map (baseScid (lowerPole "003" "002")) := by
  refine ⟨by decide, by decide, by decide, by decide, by decide⟩

/-- C9 (amended): the design file `build_wire_spec_comparison` consults is that
of the first-listed endpoint (node 1)'s base SCID whenever it has one
(irrespective of the numeric-aware pole order), else that of node 2's base
SCID; and when neither endpoint pole has a design file, the design value is
empty for every wire type. -/
theorem wireSpec_design_file_selection :
    ∀ (m : String → Option String)
      (byTypeOf : String → List (String × List (ℚ × String)))
      (spanIn : Option ℚ) (scid1 scid2 : String),
      (∀ p, m (baseScid scid1) = some p → p ≠ "" →
        selectPplxPath m scid1 scid2 = some p) ∧
      (m (baseScid scid1) = none →
        selectPplxPath m scid1 scid2 = m (baseScid scid2)) ∧
      (m (baseScid scid1) = none → m (baseScid scid2) = none →
        ∀ w, designVals m byTypeOf spanIn scid1 scid2 w = "") := by
  intro m byTypeOf spanIn scid1 scid2
  refine ⟨?_, ?_, ?_⟩
  · intro p hp hne
    unfold selectPplxPath pyOrOpt
    rw [hp]
    simp [hne]
  · intro h1
    unfold selectPplxPath pyOrOpt
    rw [h1]
  · intro h1 h2 w
    unfold designVals selectPplxPath pyOrOpt
    rw [h1, h2]

/-- Witness for C9 (amended) at concrete inputs. -/
theorem wireSpec_design_file_selection_witness :
    (c9Map (baseScid "003") = some "003.pplx" ∧ ("003.pplx" : String) ≠ "" ∧
      selectPplxPath c9Map "003" "002" = some "003.pplx") ∧
    ((fun _ => none : String → Option String) (baseScid "003") = none ∧
      designVals (fun _ => none) (fun _ => []) (some 100) "003" "002" "Primary" = "") := by
  constructor
  · refine ⟨by decide, by decide, ?_⟩
    exact (wireSpec_design_file_selection c9Map (fun _ => []) (some 100) "003" "002").1
      "003.pplx" (by decide) (by decide)
  · refine ⟨rfl, ?_⟩
    exact (wireSpec_design_file_selection (fun _ => none) (fun _ => []) (some 100)
      "003" "002").2.2 rfl rfl "Primary"

/-!
## Comm-count capping
(`src/core/wire_spec_from_excel.py`, `build_spans_comparison_data`,
lines 1077–1113)

The raw comm counts (`raw_comm`) are capped to the midspan-heights bound:
largest-count types first get at most one attachment each, then the remaining
allowed slots are redistributed round-robin.  The Python round-robin `while`
loop has no static bound; it is embedded with a fuel argument large enough
that, under the call-site invariant `remaining < total spare` (which holds
because `target < total_raw`), the loop provably drains `remaining` to zero
before the fuel runs out (`rrGo_rem_zero`), so the truncation is immaterial.
-/

/-- `raw_comm = {t: counts[t] for t in comm_types if counts.get(t, 0) > 0}`,
with the set-iteration order given by `commOrder`. -/
def rawComm (commOrder : List String) (counts : String → ℕ) : List (String × ℕ) :=
  (commOrder.filter fun t => decide (0 < counts t)).map fun t => (t, counts t)

/-- The first (at-most-one-each, largest first) pass of the capping loop:
`for t in types_sorted: if remaining <= 0: break; if raw[t] > 0:
adj[t] = min(raw[t], 1); remaining -= adj[t]`. -/
def phase1 : ℕ → (String → ℕ) → List (String × ℕ) → (String → ℕ) × ℕ
  | rem, adj, [] => (adj, rem)
  | rem, adj, (t, raw) :: rest =>
    if rem = 0 then (adj, rem)
    else if 0 < raw then phase1 (rem - min raw 1) (updFn adj t (min raw 1)) rest
    else phase1 rem adj rest

/-- The round-robin redistribution `while remaining > 0 and types_sorted`,
with an explicit fuel bound (see the section comment). -/
def rrGo (ts : List (String × ℕ)) : ℕ → ℕ → ℕ → (String → ℕ) → (String → ℕ) × ℕ
  | 0, _, rem, adj => (adj, rem)
  | fuel + 1, idx, rem, adj =>
    if rem = 0 then (adj, rem)
    else
      match ts.get? (idx % ts.length) with
      | none => (adj, rem)
      | some (t, raw) =>
        if adj t < raw then rrGo ts fuel (idx + 1) (rem - 1) (updFn adj t (adj t + 1))
        else rrGo ts fuel (idx + 1) rem adj

/-- Both capping passes over the sorted type list. -/
def commAdjust (ts : List (String × ℕ)) (target : ℕ) : String → ℕ :=
  let p1 := phase1 target (fun _ => 0) ts
  (rrGo ts (target * (ts.length + 1) + ts.length + 1) 0 p1.2 p1.1).1

/-- The comm-count adjustment of `build_spans_comparison_data`: the adjusted
per-type counts after applying the optional midspan-heights bound.  Only comm
types (members of `commOrder`) are ever modified. -/
def cappedCounts (commOrder : List String) (counts : String → ℕ)
    (limit : Option ℕ) : String → ℕ :=
  let raw := rawComm commOrder counts
  if raw = [] then counts
  else
    match limit with
    | none => counts
    | some lim =>
      let total := (raw.map Prod.snd).sum
      let target := min lim total
      if target = 0 then fun s => if s ∈ commOrder then 0 else counts s
      else if target = total then counts
      else
        let ts := List.insertionSort (fun a b => b.2 ≤ a.2) raw
        let adj := commAdjust ts target
        fun s => if s ∈ commOrder then adj s else counts s

/-- Sum of the adjusted counts over an association list's keys. -/
def keySum (ts : List (String × ℕ)) (f : String → ℕ) : ℕ :=
  (ts.map fun p => f p.1).sum

/-- Whether the round-robin position `j` has spare capacity. -/
def spareAt (ts : List (String × ℕ)) (adj : String → ℕ) (j : ℕ) : Bool :=
  match ts.get? (j % ts.length) with
  | some (t, r) => decide (adj t < r)
  | none => false

/-- Number of steps from `idx` to the next position with spare capacity,
looking at most `steps` ahead. -/
def nsd (ts : List (String × ℕ)) (adj : String → ℕ) : ℕ → ℕ → ℕ
  | 0, _ => 0
  | steps + 1, idx => if spareAt ts adj idx then 0 else nsd ts adj steps (idx + 1) + 1

lemma keySum_updFn_not_mem (ts : List (String × ℕ)) (adj : String → ℕ) (t : String) (v : ℕ)
    (h : t ∉ ts.map Prod.fst) : keySum ts (updFn adj t v) = keySum ts adj := by
  induction ts with
  | nil => rfl
  | cons p rest ih =>
    simp only [List.map_cons, List.mem_cons, not_or] at h
    simp only [keySum, List.map_cons, List.sum_cons]
    have h1 : updFn adj t v p.1 = adj p.1 := by
      unfold updFn
      rw [if_neg (fun hp => h.1 hp.symm)]
    rw [h1]
    have := ih h.2
    simp only [keySum] at this
    rw [this]

lemma keySum_updFn_mem (ts : List (String × ℕ)) (adj : String → ℕ) (t : String) (v : ℕ)
    (hn : (ts.map Prod.fst).Nodup) (hm : t ∈ ts.map Prod.fst) :
    keySum ts (updFn adj t v) + adj t = keySum ts adj + v := by
  induction ts with
  | nil => simp at hm
  | cons p rest ih =>
    simp only [List.map_cons, List.nodup_cons] at hn
    simp only [keySum, List.map_cons, List.sum_cons]
    by_cases ht : t = p.1
    · have h1 : updFn adj t v p.1 = v := by
        unfold updFn
        rw [if_pos ht.symm]
      have h2 : keySum rest (updFn adj t v) = keySum rest adj :=
        keySum_updFn_not_mem rest adj t v (by rw [ht]; exact hn.1)
      simp only [keySum] at h2
      rw [h1, h2, ← ht]
      omega
    · simp only [List.map_cons, List.mem_cons] at hm
      rcases hm with hm | hm
      · exact absurd hm ht
      · have h1 : updFn adj t v p.1 = adj p.1 := by
          unfold updFn
          rw [if_neg (fun hp => ht hp.symm)]
        rw [h1]
        have := ih hn.2 hm
        simp only [keySum] at this
        omega

lemma assoc_key_unique (ts : List (String × ℕ)) (hn : (ts.map Prod.fst).Nodup)
    (t : String) (a b : ℕ) (ha : (t, a) ∈ ts) (hb : (t, b) ∈ ts) : a = b := by
  induction ts with
  | nil => simp at ha
  | cons p rest ih =>
    simp only [List.map_cons, List.nodup_cons] at hn
    rcases List.mem_cons.mp ha with ha1 | ha1
    · rcases List.mem_cons.mp hb with hb1 | hb1
      · have h := ha1.trans hb1.symm
        exact (Prod.ext_iff.mp h).2
      · exfalso
        apply hn.1
        have hp1 : p.1 = t := by rw [← ha1]
        rw [hp1]
        exact List.mem_map.mpr ⟨(t, b), hb1, rfl⟩
    · rcases List.mem_cons.mp hb with hb1 | hb1
      · exfalso
        apply hn.1
        have hp1 : p.1 = t := by rw [← hb1]
        rw [hp1]
        exact List.mem_map.mpr ⟨(t, a), ha1, rfl⟩
      · exact ih hn.2 ha1 hb1

lemma phase1_not_mem (ts : List (String × ℕ)) :
    ∀ (rem : ℕ) (adj : String → ℕ) (s : String), s ∉ ts.map Prod.fst →
      (phase1 rem adj ts).1 s = adj s := by
  induction ts with
  | nil => intro rem adj s _; rfl
  | cons p rest ih =>
    intro rem adj s hs
    obtain ⟨t, raw⟩ := p
    simp only [List.map_cons, List.mem_cons, not_or] at hs
    simp only [phase1]
    by_cases h0 : rem = 0
    · rw [if_pos h0]
    · rw [if_neg h0]
      by_cases hr : 0 < raw
      · rw [if_pos hr]
        rw [ih _ _ s hs.2]
        unfold updFn
        rw [if_neg hs.1]
      · rw [if_neg hr]
        exact ih _ _ s hs.2

lemma phase1_conserve (ts : List (String × ℕ)) :
    ∀ (rem : ℕ) (adj : String → ℕ),
      (ts.map Prod.fst).Nodup → (∀ p ∈ ts, adj p.1 = 0) →
      keySum ts (phase1 rem adj ts).1 + (phase1 rem adj ts).2 = keySum ts adj + rem := by
  induction ts with
  | nil => intro rem adj _ _; rfl
  | cons p rest ih =>
    intro rem adj hn hz
    obtain ⟨t, raw⟩ := p
    simp only [List.map_cons, List.nodup_cons] at hn
    simp only [phase1, keySum, List.map_cons, List.sum_cons]
    by_cases h0 : rem = 0
    · rw [if_pos h0]
    · rw [if_neg h0]
      by_cases hr : 0 < raw
      · rw [if_pos hr]
        have htv : (phase1 (rem - min raw 1) (updFn adj t (min raw 1)) rest).1 t =
            min raw 1 := by
          rw [phase1_not_mem rest _ _ t hn.1]
          unfold updFn
          rw [if_pos rfl]
        have hz2 : ∀ q ∈ rest, updFn adj t (min raw 1) q.1 = 0 := by
          intro q hq
          unfold updFn
          rw [if_neg]
          · exact hz q (List.mem_cons_of_mem _ hq)
          · intro hqe
            exact hn.1 (hqe ▸ List.mem_map.mpr ⟨q, hq, rfl⟩)
        have hrec := ih (rem - min raw 1) (updFn adj t (min raw 1)) hn.2 hz2
        have hup : keySum rest (updFn adj t (min raw 1)) = keySum rest adj :=
          keySum_updFn_not_mem rest adj t _ hn.1
        rw [hup] at hrec
        simp only [keySum] at hrec
        have hzt : adj t = 0 := hz (t, raw) (List.mem_cons_self _ _)
        rw [htv, hzt]
        omega
      · rw [if_neg hr]
        have hrec := ih rem adj hn.2 (fun q hq => hz q (List.mem_cons_of_mem _ hq))
        simp only [keySum] at hrec
        have htv : (phase1 rem adj rest).1 t = adj t := phase1_not_mem rest _ _ t hn.1
        rw [htv]
        omega

lemma phase1_le_raw (ts : List (String × ℕ)) :
    ∀ (rem : ℕ) (adj : String → ℕ),
      (ts.map Prod.fst).Nodup → (∀ p ∈ ts, adj p.1 = 0) →
      ∀ p ∈ ts, (phase1 rem adj ts).1 p.1 ≤ min p.2 1 := by
  induction ts with
  | nil => intro rem adj _ _ p hp; simp at hp
  | cons q rest ih =>
    intro rem adj hn hz p hp
    obtain ⟨t, raw⟩ := q
    simp only [List.map_cons, List.nodup_cons] at hn
    simp only [phase1]
    by_cases h0 : rem = 0
    · rw [if_pos h0]
      have := hz p hp
      show adj p.1 ≤ min p.2 1
      omega
    · rw [if_neg h0]
      by_cases hr : 0 < raw
      · rw [if_pos hr]
        rcases List.mem_cons.mp hp with hp1 | hp1
        · have hp2 : p.1 = t := by rw [hp1]
          rw [hp2, phase1_not_mem rest _ _ t hn.1]
          have : updFn adj t (min raw 1) t = min raw 1 := by
            unfold updFn
            rw [if_pos rfl]
          rw [this, hp1]
        · have hz2 : ∀ q2 ∈ rest, updFn adj t (min raw 1) q2.1 = 0 := by
            intro q2 hq2
            unfold updFn
            rw [if_neg]
            · exact hz q2 (List.mem_cons_of_mem _ hq2)
            · intro hqe
              exact hn.1 (hqe ▸ List.mem_map.mpr ⟨q2, hq2, rfl⟩)
          exact ih _ _ hn.2 hz2 p hp1
      · rw [if_neg hr]
        rcases List.mem_cons.mp hp with hp1 | hp1
        · have hp2 : p.1 = t := by rw [hp1]
          rw [hp2, phase1_not_mem rest _ _ t hn.1]
          have := hz p hp
          rw [hp2] at this
          omega
        · exact ih _ _ hn.2 (fun q2 hq2 => hz q2 (List.mem_cons_of_mem _ hq2)) p hp1

lemma phase1_all_one (ts : List (String × ℕ)) :
    ∀ (rem : ℕ) (adj : String → ℕ),
      (ts.map Prod.fst).Nodup → (∀ p ∈ ts, adj p.1 = 0) →
      (∀ p ∈ ts, 0 < p.2) → ts.length ≤ rem →
      ∀ p ∈ ts, (phase1 rem adj ts).1 p.1 = 1 := by
  induction ts with
  | nil => intro rem adj _ _ _ _ p hp; simp at hp
  | cons q rest ih =>
    intro rem adj hn hz hpos hge p hp
    obtain ⟨t, raw⟩ := q
    simp only [List.map_cons, List.nodup_cons] at hn
    simp only [List.length_cons] at hge
    have h0 : ¬ rem = 0 := by omega
    have hr : 0 < raw := hpos (t, raw) (List.mem_cons_self _ _)
    have hmin : min raw 1 = 1 := by omega
    simp only [phase1]
    rw [if_neg h0, if_pos hr]
    rcases List.mem_cons.mp hp with hp1 | hp1
    · have hp2 : p.1 = t := by rw [hp1]
      rw [hp2, phase1_not_mem rest _ _ t hn.1]
      unfold updFn
      rw [if_pos rfl]
      exact hmin
    · have hz2 : ∀ q2 ∈ rest, updFn adj t (min raw 1) q2.1 = 0 := by
        intro q2 hq2
        unfold updFn
        rw [if_neg]
        · exact hz q2 (List.mem_cons_of_mem _ hq2)
        · intro hqe
          exact hn.1 (hqe ▸ List.mem_map.mpr ⟨q2, hq2, rfl⟩)
      refine ih _ _ hn.2 hz2 (fun q2 hq2 => hpos q2 (List.mem_cons_of_mem _ hq2)) ?_ p hp1
      omega

lemma rrGo_not_mem (ts : List (String × ℕ)) :
    ∀ (fuel idx rem : ℕ) (adj : String → ℕ) (s : String), s ∉ ts.map Prod.fst →
      (rrGo ts fuel idx rem adj).1 s = adj s := by
  intro fuel
  induction fuel with
  | zero => intro idx rem adj s _; rfl
  | succ f ih =>
    intro idx rem adj s hs
    simp only [rrGo]
    by_cases h0 : rem = 0
    · rw [if_pos h0]
    · rw [if_neg h0]
      cases hget : ts.get? (idx % ts.length) with
      | none => rfl
      | some q =>
        obtain ⟨t, raw⟩ := q
        dsimp only
        by_cases hlt : adj t < raw
        · rw [if_pos hlt, ih _ _ _ s hs]
          unfold updFn
          rw [if_neg]
          intro he
          exact hs (he ▸ List.mem_map.mpr ⟨(t, raw), List.get?_mem hget, rfl⟩)
        · rw [if_neg hlt]
          exact ih _ _ _ s hs

lemma rrGo_le_raw (ts : List (String × ℕ)) (hn : (ts.map Prod.fst).Nodup) :
    ∀ (fuel idx rem : ℕ) (adj : String → ℕ),
      (∀ p ∈ ts, adj p.1 ≤ p.2) →
      ∀ p ∈ ts, (rrGo ts fuel idx rem adj).1 p.1 ≤ p.2 := by
  intro fuel
  induction fuel with
  | zero => intro idx rem adj hle p hp; exact hle p hp
  | succ f ih =>
    intro idx rem adj hle p hp
    simp only [rrGo]
    by_cases h0 : rem = 0
    · rw [if_pos h0]
      exact hle p hp
    · rw [if_neg h0]
      cases hget : ts.get? (idx % ts.length) with
      | none => exact hle p hp
      | some q =>
        obtain ⟨t, raw⟩ := q
        dsimp only
        by_cases hlt : adj t < raw
        · rw [if_pos hlt]
          refine ih _ _ _ ?_ p hp
          intro q2 hq2
          unfold updFn
          by_cases hq2t : q2.1 = t
          · rw [if_pos hq2t]
            have hq2raw : q2.2 = raw := by
              have hmem : (t, raw) ∈ ts := List.get?_mem hget
              have : (q2.1, q2.2) ∈ ts := by simpa using hq2
              rw [hq2t] at this
              exact assoc_key_unique ts hn t q2.2 raw this hmem
            omega
          · rw [if_neg hq2t]
            exact hle q2 hq2
        · rw [if_neg hlt]
          exact ih _ _ _ hle p hp

lemma rrGo_conserve (ts : List (String × ℕ)) (hn : (ts.map Prod.fst).Nodup) :
    ∀ (fuel idx rem : ℕ) (adj : String → ℕ),
      keySum ts (rrGo ts fuel idx rem adj).1 + (rrGo ts fuel idx rem adj).2 =
        keySum ts adj + rem := by
  intro fuel
  induction fuel with
  | zero => intro idx rem adj; rfl
  | succ f ih =>
    intro idx rem adj
    simp only [rrGo]
    by_cases h0 : rem = 0
    · rw [if_pos h0]
    · rw [if_neg h0]
      cases hget : ts.get? (idx % ts.length) with
      | none => rfl
      | some q =>
        obtain ⟨t, raw⟩ := q
        dsimp only
        by_cases hlt : adj t < raw
        · rw [if_pos hlt]
          have hrec := ih (idx + 1) (rem - 1) (updFn adj t (adj t + 1))
          have hmem : t ∈ ts.map Prod.fst :=
            List.mem_map.mpr ⟨(t, raw), List.get?_mem hget, rfl⟩
          have hupd := keySum_updFn_mem ts adj t (adj t + 1) hn hmem
          omega
        · rw [if_neg hlt]
          exact ih _ _ _

lemma rrGo_mono (ts : List (String × ℕ)) :
    ∀ (fuel idx rem : ℕ) (adj : String → ℕ) (s : String),
      adj s ≤ (rrGo ts fuel idx rem adj).1 s := by
  intro fuel
  induction fuel with
  | zero => intro idx rem adj s; exact le_refl _
  | succ f ih =>
    intro idx rem adj s
    simp only [rrGo]
    by_cases h0 : rem = 0
    · rw [if_pos h0]
    · rw [if_neg h0]
      cases hget : ts.get? (idx % ts.length) with
      | none => exact le_refl _
      | some q =>
        obtain ⟨t, raw⟩ := q
        dsimp only
        by_cases hlt : adj t < raw
        · rw [if_pos hlt]
          refine le_trans ?_ (ih (idx + 1) (rem - 1) (updFn adj t (adj t + 1)) s)
          unfold updFn
          by_cases hst : s = t
          · rw [if_pos hst, hst]
            omega
          · rw [if_neg hst]
        · rw [if_neg hlt]
          exact ih _ _ _ s

lemma nsd_le (ts : List (String × ℕ)) (adj : String → ℕ) :
    ∀ (steps idx : ℕ), nsd ts adj steps idx ≤ steps := by
  intro steps
  induction steps with
  | zero => intro idx; exact le_refl _
  | succ st ih =>
    intro idx
    simp only [nsd]
    by_cases h : spareAt ts adj idx = true
    · rw [if_pos h]
      omega
    · rw [if_neg h]
      have := ih (idx + 1)
      omega

lemma nsd_stable (ts : List (String × ℕ)) (adj : String → ℕ) :
    ∀ (steps idx : ℕ), (∃ k, k < steps ∧ spareAt ts adj (idx + k) = true) →
      nsd ts adj (steps + 1) idx = nsd ts adj steps idx := by
  intro steps
  induction steps with
  | zero =>
    intro idx h
    obtain ⟨k, hk, -⟩ := h
    omega
  | succ st ih =>
    intro idx h
    by_cases hsp : spareAt ts adj idx = true
    · simp only [nsd]
      rw [if_pos hsp, if_pos hsp]
    · obtain ⟨k, hk, hkh⟩ := h
      have hk0 : k ≠ 0 := by
        intro h0
        rw [h0, Nat.add_zero] at hkh
        exact hsp hkh
      obtain ⟨k2, rfl⟩ : ∃ k2, k = k2 + 1 := ⟨k - 1, by omega⟩
      have hkh2 : spareAt ts adj (idx + 1 + k2) = true := by
        have : idx + 1 + k2 = idx + (k2 + 1) := by omega
        rw [this]
        exact hkh
      have hrec := ih (idx + 1) ⟨k2, by omega, hkh2⟩
      have e1 : nsd ts adj (st + 1 + 1) idx = nsd ts adj (st + 1) (idx + 1) + 1 := by
        show (if spareAt ts adj idx = true then 0 else nsd ts adj (st + 1) (idx + 1) + 1) = _
        rw [if_neg hsp]
      have e2 : nsd ts adj (st + 1) idx = nsd ts adj st (idx + 1) + 1 := by
        show (if spareAt ts adj idx = true then 0 else nsd ts adj st (idx + 1) + 1) = _
        rw [if_neg hsp]
      rw [e1, e2, hrec]

lemma spare_exists (ts : List (String × ℕ)) (adj : String → ℕ) (rem : ℕ)
    (hle : ∀ p ∈ ts, adj p.1 ≤ p.2)
    (hsp : keySum ts adj + rem ≤ (ts.map Prod.snd).sum) (hrem : 0 < rem) :
    ∃ p ∈ ts, adj p.1 < p.2 := by
  by_contra hcon
  push_neg at hcon
  have hges : (ts.map Prod.snd).sum ≤ (ts.map fun p => adj p.1).sum :=
    List.sum_le_sum (fun p hp => hcon p hp)
  simp only [keySum] at hsp
  omega

lemma spare_pos (ts : List (String × ℕ)) (adj : String → ℕ)
    (h : ∃ p ∈ ts, adj p.1 < p.2) :
    ∀ idx, ∃ k, k < ts.length ∧ spareAt ts adj (idx + k) = true := by
  obtain ⟨p, hp, hlt⟩ := h
  intro idx
  obtain ⟨n, hn⟩ := List.mem_iff_get?.mp hp
  have hnlen : n < ts.length := by
    by_contra hge
    rw [List.get?_eq_none.mpr (by omega)] at hn
    cases hn
  have hlen0 : 0 < ts.length := by omega
  set a := idx % ts.length with ha
  have halt : a < ts.length := Nat.mod_lt _ hlen0
  have hklt : (if a ≤ n then n - a else ts.length - a + n) < ts.length := by
    by_cases hc : a ≤ n
    · rw [if_pos hc]
      omega
    · rw [if_neg hc]
      omega
  refine ⟨if a ≤ n then n - a else ts.length - a + n, hklt, ?_⟩
  have hmod : (idx + (if a ≤ n then n - a else ts.length - a + n)) % ts.length = n := by
    have hdm := Nat.div_add_mod idx ts.length
    have hidx : idx + (if a ≤ n then n - a else ts.length - a + n) =
        ts.length * (idx / ts.length) + (a + (if a ≤ n then n - a else ts.length - a + n)) := by
      omega
    rw [hidx, Nat.mul_add_mod]
    by_cases hc : a ≤ n
    · rw [if_pos hc]
      have : a + (n - a) = n := by omega
      rw [this, Nat.mod_eq_of_lt hnlen]
    · rw [if_neg hc]
      have : a + (ts.length - a + n) = ts.length + n := by omega
      rw [this, Nat.add_mod_left, Nat.mod_eq_of_lt hnlen]
  unfold spareAt
  rw [hmod, hn]
  obtain ⟨t, r⟩ := p
  exact decide_eq_true hlt

lemma rrGo_rem_zero (ts : List (String × ℕ)) (hn : (ts.map Prod.fst).Nodup) :
    ∀ (fuel idx rem : ℕ) (adj : String → ℕ),
      (∀ p ∈ ts, adj p.1 ≤ p.2) →
      keySum ts adj + rem ≤ (ts.map Prod.snd).sum →
      rem * (ts.length + 1) + nsd ts adj ts.length idx < fuel →
      (rrGo ts fuel idx rem adj).2 = 0 := by
  intro fuel
  induction fuel using Nat.strong_induction_on with
  | _ fuel ih =>
    intro idx rem adj hle hsp hfuel
    cases fuel with
    | zero => omega
    | succ f =>
      by_cases h0 : rem = 0
      · simp only [rrGo]
        rw [if_pos h0]
        exact h0
      · have hrem : 0 < rem := by omega
        have hex := spare_exists ts adj rem hle hsp hrem
        obtain ⟨k, hk, hkh⟩ := spare_pos ts adj hex idx
        have hlen0 : 0 < ts.length := by omega
        have hmodlt : idx % ts.length < ts.length := Nat.mod_lt _ hlen0
        obtain ⟨q, hget⟩ : ∃ q, ts.get? (idx % ts.length) = some q := by
          cases hg : ts.get? (idx % ts.length) with
          | none =>
            rw [List.get?_eq_none] at hg
            omega
          | some q => exact ⟨q, rfl⟩
        obtain ⟨t, raw⟩ := q
        simp only [rrGo]
        rw [if_neg h0, hget]
        dsimp only
        by_cases hgr : adj t < raw
        · rw [if_pos hgr]
          have hmem : t ∈ ts.map Prod.fst :=
            List.mem_map.mpr ⟨(t, raw), List.get?_mem hget, rfl⟩
          refine ih f (by omega) (idx + 1) (rem - 1) (updFn adj t (adj t + 1)) ?_ ?_ ?_
          · intro p hp
            unfold updFn
            by_cases hpt : p.1 = t
            · rw [if_pos hpt]
              have hpraw : p.2 = raw := by
                have hmem2 : (t, raw) ∈ ts := List.get?_mem hget
                have hmem3 : (p.1, p.2) ∈ ts := by simpa using hp
                rw [hpt] at hmem3
                exact assoc_key_unique ts hn t p.2 raw hmem3 hmem2
              omega
            · rw [if_neg hpt]
              exact hle p hp
          · have := keySum_updFn_mem ts adj t (adj t + 1) hn hmem
            omega
          · have h1 := nsd_le ts (updFn adj t (adj t + 1)) ts.length (idx + 1)
            have hmul : rem * (ts.length + 1) =
                (rem - 1) * (ts.length + 1) + (ts.length + 1) := by
              have hr1 : rem = (rem - 1) + 1 := by omega
              calc rem * (ts.length + 1) = ((rem - 1) + 1) * (ts.length + 1) := by rw [← hr1]
                _ = (rem - 1) * (ts.length + 1) + (ts.length + 1) := by ring
            omega
        · rw [if_neg hgr]
          have hspf : spareAt ts adj idx = false := by
            unfold spareAt
            rw [hget]
            exact decide_eq_false hgr
          have hspf2 : ¬ spareAt ts adj idx = true := by
            rw [hspf]
            simp
          have hk0 : k ≠ 0 := by
            intro hz
            rw [hz, Nat.add_zero] at hkh
            rw [hkh] at hspf
            cases hspf
          obtain ⟨k2, rfl⟩ : ∃ k2, k = k2 + 1 := ⟨k - 1, by omega⟩
          have hhit : spareAt ts adj (idx + 1 + k2) = true := by
            have : idx + 1 + k2 = idx + (k2 + 1) := by omega
            rw [this]
            exact hkh
          obtain ⟨m, hm⟩ : ∃ m, ts.length = m + 1 := ⟨ts.length - 1, by omega⟩
          have hnsd1 : nsd ts adj ts.length idx = nsd ts adj m (idx + 1) + 1 := by
            rw [hm]
            show (if spareAt ts adj idx = true then 0 else nsd ts adj m (idx + 1) + 1) = _
            rw [if_neg hspf2]
          have hnsd2 : nsd ts adj ts.length (idx + 1) = nsd ts adj m (idx + 1) := by
            rw [hm]
            exact nsd_stable ts adj m (idx + 1) ⟨k2, by omega, hhit⟩
          refine ih f (by omega) (idx + 1) rem adj hle hsp ?_
          omega

lemma sum_filter_split (l : List String) (f : String → ℕ) (p : String → Bool) :
    (l.map f).sum = ((l.filter p).map f).sum + ((l.filter (fun x => !(p x))).map f).sum := by
  induction l with
  | nil => rfl
  | cons a rest ih =>
    by_cases hp : p a = true
    · rw [List.filter_cons_of_pos hp, List.filter_cons_of_neg (by simp [hp])]
      simp only [List.map_cons, List.sum_cons]
      omega
    · rw [List.filter_cons_of_neg hp, List.filter_cons_of_pos (by simp [hp])]
      simp only [List.map_cons, List.sum_cons]
      omega

lemma rawComm_keys (commOrder : List String) (counts : String → ℕ) :
    (rawComm commOrder counts).map Prod.fst =
      commOrder.filter (fun t => decide (0 < counts t)) := by
  unfold rawComm
  rw [List.map_map]
  exact List.map_id _

lemma rawComm_entry (commOrder : List String) (counts : String → ℕ) :
    ∀ p ∈ rawComm commOrder counts, p.2 = counts p.1 ∧ 0 < p.2 := by
  intro p hp
  unfold rawComm at hp
  obtain ⟨t, htf, heq⟩ := List.mem_map.mp hp
  obtain ⟨-, hpos⟩ := List.mem_filter.mp htf
  rw [← heq]
  exact ⟨rfl, of_decide_eq_true hpos⟩

lemma listMapCongr {α β : Type} (l : List α) (f g : α → β) (h : ∀ a ∈ l, f a = g a) :
    l.map f = l.map g := by
  induction l with
  | nil => rfl
  | cons a rest ih =>
    simp only [List.map_cons]
    rw [h a (List.mem_cons_self _ _), ih (fun x hx => h x (List.mem_cons_of_mem _ hx))]

/-- C8: when the auxiliary midspan-heights bound `b` is positive and below the
raw comm total, the adjusted comm counts sum to exactly `b`, no adjusted count
exceeds its raw count, every comm type with a nonzero raw count keeps at least
one attachment whenever `b` is at least the number of such types, and non-comm
types are untouched. -/
theorem commCap_properties :
    ∀ (commOrder : List String) (counts : String → ℕ) (b : ℕ),
      commOrder.Nodup → 0 < b →
      b < ((rawComm commOrder counts).map Prod.snd).sum →
      ((commOrder.map (cappedCounts commOrder counts (some b))).sum = b ∧
       (∀ t, cappedCounts commOrder counts (some b) t ≤ counts t) ∧
       ((rawComm commOrder counts).length ≤ b →
         ∀ t ∈ commOrder, 0 < counts t → 1 ≤ cappedCounts commOrder counts (some b) t) ∧
       (∀ t ∉ commOrder, cappedCounts commOrder counts (some b) t = counts t)) := by
  intro commOrder counts b hnodup hb hlt
  have hrawne : ¬ rawComm commOrder counts = [] := by
    intro h
    rw [h] at hlt
    simp at hlt
  have hmin : min b ((rawComm commOrder counts).map Prod.snd).sum = b :=
    min_eq_left (le_of_lt hlt)
  have hne0 : ¬ b = 0 := by omega
  have hnetot : ¬ b = ((rawComm commOrder counts).map Prod.snd).sum := ne_of_lt hlt
  have hcap : cappedCounts commOrder counts (some b) =
      fun s => if s ∈ commOrder then
        commAdjust (List.insertionSort (fun a b => b.2 ≤ a.2) (rawComm commOrder counts)) b s
      else counts s := by
    simp only [cappedCounts]
    rw [if_neg hrawne, hmin, if_neg hne0, if_neg hnetot]
  set raw := rawComm commOrder counts with hraw
  set ts := List.insertionSort (fun a b => b.2 ≤ a.2) raw with hts
  have hperm : ts.Perm raw := List.perm_insertionSort _ raw
  have hkeysraw : raw.map Prod.fst = commOrder.filter (fun t => decide (0 < counts t)) :=
    rawComm_keys commOrder counts
  have hkeysnodraw : (raw.map Prod.fst).Nodup := by
    rw [hkeysraw]
    exact hnodup.filter _
  have hkeyperm : (ts.map Prod.fst).Perm (raw.map Prod.fst) := hperm.map _
  have hkeysnod : (ts.map Prod.fst).Nodup := hkeyperm.nodup_iff.mpr hkeysnodraw
  have hentry : ∀ p ∈ ts, p.2 = counts p.1 ∧ 0 < p.2 :=
    fun p hp => rawComm_entry commOrder counts p (hperm.subset hp)
  have hRts : (ts.map Prod.snd).sum = (raw.map Prod.snd).sum := (hperm.map Prod.snd).sum_eq
  have hzero : ∀ p ∈ ts, (fun _ => (0 : ℕ)) p.1 = 0 := fun _ _ => rfl
  have hzsum : keySum ts (fun _ => 0) = 0 := by
    simp [keySum]
  have hcons1 : keySum ts (phase1 b (fun _ => 0) ts).1 + (phase1 b (fun _ => 0) ts).2 = b := by
    have h := phase1_conserve ts b (fun _ => 0) hkeysnod hzero
    rw [hzsum] at h
    omega
  have hle1 : ∀ p ∈ ts, (phase1 b (fun _ => 0) ts).1 p.1 ≤ p.2 := by
    intro p hp
    have h := phase1_le_raw ts b (fun _ => 0) hkeysnod hzero p hp
    have h2 : min p.2 1 ≤ p.2 := min_le_left _ _
    omega
  have hAdj : commAdjust ts b =
      (rrGo ts (b * (ts.length + 1) + ts.length + 1) 0 (phase1 b (fun _ => 0) ts).2
        (phase1 b (fun _ => 0) ts).1).1 := rfl
  have hsp : keySum ts (phase1 b (fun _ => 0) ts).1 + (phase1 b (fun _ => 0) ts).2 ≤
      (ts.map Prod.snd).sum := by
    rw [hcons1, hRts]
    exact le_of_lt hlt
  have hfuel : (phase1 b (fun _ => 0) ts).2 * (ts.length + 1) +
      nsd ts (phase1 b (fun _ => 0) ts).1 ts.length 0 <
      b * (ts.length + 1) + ts.length + 1 := by
    have h1 : (phase1 b (fun _ => 0) ts).2 ≤ b := by omega
    have h2 := nsd_le ts (phase1 b (fun _ => 0) ts).1 ts.length 0
    have h3 : (phase1 b (fun _ => 0) ts).2 * (ts.length + 1) ≤ b * (ts.length + 1) :=
      Nat.mul_le_mul_right _ h1
    omega
  have hremF : (rrGo ts (b * (ts.length + 1) + ts.length + 1) 0 (phase1 b (fun _ => 0) ts).2
      (phase1 b (fun _ => 0) ts).1).2 = 0 :=
    rrGo_rem_zero ts hkeysnod _ 0 _ _ hle1 hsp hfuel
  have hconsF := rrGo_conserve ts hkeysnod (b * (ts.length + 1) + ts.length + 1) 0
    (phase1 b (fun _ => 0) ts).2 (phase1 b (fun _ => 0) ts).1
  have hsumF : keySum ts (commAdjust ts b) = b := by
    rw [hAdj]
    omega
  have hnotkey : ∀ s, s ∉ ts.map Prod.fst → commAdjust ts b s = 0 := by
    intro s hs
    rw [hAdj, rrGo_not_mem ts _ _ _ _ s hs, phase1_not_mem ts _ _ s hs]
  refine ⟨?_, ?_, ?_, ?_⟩
  · rw [hcap]
    have hmapc : commOrder.map (fun s => if s ∈ commOrder then commAdjust ts b s else counts s)
        = commOrder.map (commAdjust ts b) := by
      refine listMapCongr _ _ _ ?_
      intro t ht
      rw [if_pos ht]
    rw [hmapc, sum_filter_split commOrder (commAdjust ts b) (fun t => decide (0 < counts t))]
    have hzpart : ((commOrder.filter (fun t => !(decide (0 < counts t)))).map
        (commAdjust ts b)).sum = 0 := by
      apply List.sum_eq_zero
      intro x hx
      obtain ⟨t, htmem, rfl⟩ := List.mem_map.mp hx
      obtain ⟨-, htneg⟩ := List.mem_filter.mp htmem
      apply hnotkey
      intro hkey
      have : t ∈ raw.map Prod.fst := hkeyperm.subset hkey
      rw [hkeysraw] at this
      obtain ⟨-, htpos⟩ := List.mem_filter.mp this
      simp only [Bool.not_eq_true'] at htneg
      rw [htneg] at htpos
      cases htpos
    have hppart : ((commOrder.filter (fun t => decide (0 < counts t))).map
        (commAdjust ts b)).sum = keySum ts (commAdjust ts b) := by
      rw [← hkeysraw, List.map_map]
      have hcomp : (raw.map (commAdjust ts b ∘ Prod.fst)).sum =
          keySum raw (commAdjust ts b) := rfl
      rw [hcomp]
      have hky : keySum ts (commAdjust ts b) = keySum raw (commAdjust ts b) := by
        simp only [keySum]
        exact List.Perm.sum_eq (List.Perm.map _ hperm)
      rw [hky]
    rw [hzpart, hppart, hsumF]
    omega
  · intro t
    simp only [hcap]
    by_cases htc : t ∈ commOrder
    · rw [if_pos htc]
      by_cases htk : t ∈ ts.map Prod.fst
      · obtain ⟨p, hp, hpt⟩ := List.mem_map.mp htk
        have hle2 := rrGo_le_raw ts hkeysnod (b * (ts.length + 1) + ts.length + 1) 0
          (phase1 b (fun _ => 0) ts).2 (phase1 b (fun _ => 0) ts).1 hle1 p hp
        rw [← hAdj, hpt] at hle2
        have hpc := (hentry p hp).1
        rw [hpt] at hpc
        omega
      · rw [hnotkey t htk]
        exact Nat.zero_le _
    · rw [if_neg htc]
  · intro hlen t htc htpos
    simp only [hcap]
    rw [if_pos htc]
    have htk : t ∈ ts.map Prod.fst := by
      apply hkeyperm.mem_iff.mpr
      rw [hkeysraw]
      exact List.mem_filter.mpr ⟨htc, decide_eq_true htpos⟩
    obtain ⟨p, hp, hpt⟩ := List.mem_map.mp htk
    have hlents : ts.length ≤ b := by
      rw [hperm.length_eq]
      have : raw.length = (raw.map Prod.snd).length := (List.length_map _ _).symm
      omega
    have h1 := phase1_all_one ts b (fun _ => 0) hkeysnod hzero
      (fun q hq => (hentry q hq).2) hlents p hp
    have h2 := rrGo_mono ts (b * (ts.length + 1) + ts.length + 1) 0
      (phase1 b (fun _ => 0) ts).2 (phase1 b (fun _ => 0) ts).1 p.1
    rw [← hAdj] at h2
    rw [← hpt]
    omega
  · intro t htc
    simp only [hcap]
    rw [if_neg htc]

/-- Concrete raw attachment counts used to witness `commCap_properties`. -/
def c8wCounts : String → ℕ := fun t =>
  if t = "catv" then 3 else if t = "fiber" then 2 else 0

/-- Witness for `commCap_properties`: with raw counts catv = 3, fiber = 2,
telco = 0 and bound 2, the hypotheses hold and the capping properties follow. -/
theorem commCap_properties_witness :
    (commTypes.Nodup ∧ 0 < 2 ∧
      2 < ((rawComm commTypes c8wCounts).map Prod.snd).sum) ∧
    ((commTypes.map (cappedCounts commTypes c8wCounts (some 2))).sum = 2 ∧
     (∀ t, cappedCounts commTypes c8wCounts (some 2) t ≤ c8wCounts t) ∧
     ((rawComm commTypes c8wCounts).length ≤ 2 →
       ∀ t ∈ commTypes, 0 < c8wCounts t → 1 ≤ cappedCounts commTypes c8wCounts (some 2) t) ∧
     (∀ t ∉ commTypes, cappedCounts commTypes c8wCounts (some 2) t = c8wCounts t)) :=
  ⟨⟨by decide, by decide, by decide⟩,
   commCap_properties commTypes c8wCounts 2 (by decide) (by decide) (by decide)⟩
